import Mathlib

/-!
Verification of the protoedit wire codec, document model and layout engine.

The Rust sources are shallowly embedded:
* bytes are `Nat` values below 256, byte buffers are `List Nat`;
* `u32`/`u64`/`u128` machine words are `Nat` with explicit `% 2 ^ w`
  wherever release-mode wrapping can occur;
* `i32`/`i64`/`i128` values are `Int`, with explicit two's-complement
  images where the source casts between widths;
* fallible code returns `Except PbError`;
* in-place mutation is modelled by explicit state passing.
-/

namespace Protoedit

set_option maxHeartbeats 1000000
set_option maxRecDepth 100000

/-- Error kinds raised by the decoder (`io::Error` values in the source,
distinguished here by their construction sites). -/
inductive PbError where
  | unexpectedEof   -- "not completed VARINT" (source exhausted mid-varint)
  | varintOverflow  -- "VARINT overflow"
  | truncatedInput  -- "read data out of limit" (PbReader::read_len)
  | readExactEof    -- read_exact failed: fewer bytes available than requested
  | unsupported     -- "Start/end group (deprecated) is not supported"
  | invalidData     -- "Unsupported length type"
  | panicked        -- a panicking path (unwrap of a missing message definition)
  | fuelExhausted   -- model artifact: the explicit recursion-fuel bound ran out
deriving DecidableEq

/-- Wrapping subtraction on `u32` (release-mode semantics of `a - b`). -/
def wsub32 (a b : Nat) : Nat :=
  (a + 2 ^ 32 - b % 2 ^ 32) % 2 ^ 32

/-- Loop of `CommonFieldProto::write_varint`, made structural on a fuel
argument (the caller passes `data` itself as fuel, which suffices because
the value strictly shrinks with every division by 128). -/
def write_varint_go : Nat → Nat → List Nat
  | 0, data => [data]
  | fuel + 1, data =>
    if 127 < data then
      (data % 128 + 128) :: write_varint_go fuel (data / 128 % 2 ^ 63)
    else
      [data]

/-- `CommonFieldProto::write_varint`.  The `i128` argument is represented by
its `u128` two's-complement image `data < 2 ^ 128`.  One loop step pushes
`((data as u8) & 0x7f) | 0x80 = data % 128 + 128` and replaces `data` by
`(data >> 7) & 0x7fffffffffffffff`, whose `u128` image is
`data / 128 % 2 ^ 63` (the arithmetic shift followed by the 63-bit mask
erases the sign bits).  The loop guard `(data as u128) > 0x7f` is
`127 < data` on the image. -/
def write_varint (data : Nat) : List Nat :=
  write_varint_go data data

/-- `u128` image of an `i128` value (two's complement). -/
def toU128 (x : Int) : Nat :=
  (x % ((2 ^ 128 : Nat) : Int)).toNat

/-- `CommonFieldProto::write_varint` on a signed (`i128`) argument. -/
def write_varint_i (x : Int) : List Nat :=
  write_varint (toU128 x)

/-- Loop body of `PbReader::read_varint`.  State: remaining input bytes,
`self.pos`, the shrinking `u32` budget `limit`, the accumulator `value`
and `bits_read`.  Returns `(value, rest, pos, limit)` on success; running
out of input while the loop is still going is the
`Err("not completed VARINT")` exit. -/
def read_varint_aux : List Nat → Nat → Nat → Nat → Nat → Except PbError (Nat × List Nat × Nat × Nat)
  | [], _, _, _, _ => .error .unexpectedEof
  | b :: rest, pos, limit, value, bitsRead =>
    if b &&& 0x80 = 0 then
      .ok (value ||| (b <<< bitsRead), rest, pos + 1, wsub32 limit 1)
    else if wsub32 limit 1 = 0 then
      .error .unexpectedEof
    else if 64 - 8 < bitsRead then
      .error .varintOverflow
    else
      read_varint_aux rest (pos + 1) (wsub32 limit 1)
        (value ||| ((b &&& 0x7f) <<< bitsRead)) (bitsRead + 7)

/-- `PbReader::read_varint`.  The `i128` result only ever accumulates at most
70 bits, hence is nonnegative and modelled as a `Nat`. -/
def read_varint (data : List Nat) (pos limit : Nat) :
    Except PbError (Nat × List Nat × Nat × Nat) :=
  read_varint_aux data pos limit 0 0

/-- `ScalarValue::varint_size`.  A negative argument hits `todo!()` and a
value of 70 bits or more hits `panic!()`; both are modelled as 0 here (no
input considered by the claims reaches them). -/
def varint_size (value : Int) : Nat :=
  if value < 0 then 0
  else if value ≤ 0x7f then 1
  else if value ≤ 0x3fff then 2
  else if value ≤ 0x1fffff then 3
  else if value ≤ 0xfffffff then 4
  else if value ≤ 0x7ffffffff then 5
  else if value ≤ 0x3ffffffffff then 6
  else if value ≤ 0x1ffffffffffff then 7
  else if value ≤ 0xffffffffffffff then 8
  else if value ≤ 0x7fffffffffffffff then 9
  else if value ≤ 0x3fffffffffffffffff then 10
  else 0

/-! Basic facts about the varint codec. -/

theorem write_varint_go_fuel (fuel1 : Nat) :
    ∀ fuel2 data, data ≤ fuel1 → data ≤ fuel2 →
      write_varint_go fuel1 data = write_varint_go fuel2 data := by
  induction fuel1 using Nat.strong_induction_on with
  | _ fuel1 ih =>
    intro fuel2 data h1 h2
    cases fuel1 with
    | zero =>
      have hd : data = 0 := by omega
      subst hd
      cases fuel2 with
      | zero => rfl
      | succ f2 => norm_num [write_varint_go]
    | succ f1 =>
      cases fuel2 with
      | zero =>
        have hd : data = 0 := by omega
        subst hd
        norm_num [write_varint_go]
      | succ f2 =>
        simp only [write_varint_go]
        split
        · next hd =>
          have hdata : data / 128 % 2 ^ 63 ≤ data / 128 := Nat.mod_le _ _
          have hdiv : data / 128 < data := by omega
          rw [ih f1 (by omega) f2 (data / 128 % 2 ^ 63) (by omega) (by omega)]
        · rfl

/-- Unfolding equation for `write_varint`, matching the source loop. -/
theorem write_varint_eq (data : Nat) :
    write_varint data =
      if 127 < data then
        (data % 128 + 128) :: write_varint (data / 128 % 2 ^ 63)
      else
        [data] := by
  show write_varint_go data data = _
  cases data with
  | zero => norm_num [write_varint_go]
  | succ d =>
    simp only [write_varint_go]
    split
    · next hd =>
      have hdata : (d + 1) / 128 % 2 ^ 63 ≤ (d + 1) / 128 := Nat.mod_le _ _
      have hdiv : (d + 1) / 128 < d + 1 := by omega
      rw [write_varint_go_fuel d ((d + 1) / 128 % 2 ^ 63) ((d + 1) / 128 % 2 ^ 63)
        (by omega) (le_refl _)]
      rfl
    · rfl

theorem write_varint_nonempty (v : Nat) : write_varint v ≠ [] := by
  rw [write_varint_eq]
  split <;> simp

theorem varint_size_eq_1 {x : Int} (h0 : 0 ≤ x) (h : x ≤ 0x7f) : varint_size x = 1 := by
  unfold varint_size
  split_ifs <;> omega

theorem varint_size_eq_2 {x : Int} (h0 : 0x7f < x) (h : x ≤ 0x3fff) : varint_size x = 2 := by
  unfold varint_size
  split_ifs <;> omega

theorem varint_size_eq_3 {x : Int} (h0 : 0x3fff < x) (h : x ≤ 0x1fffff) : varint_size x = 3 := by
  unfold varint_size
  split_ifs <;> omega

theorem varint_size_eq_4 {x : Int} (h0 : 0x1fffff < x) (h : x ≤ 0xfffffff) : varint_size x = 4 := by
  unfold varint_size
  split_ifs <;> omega

theorem varint_size_eq_5 {x : Int} (h0 : 0xfffffff < x) (h : x ≤ 0x7ffffffff) : varint_size x = 5 := by
  unfold varint_size
  split_ifs <;> omega

theorem varint_size_eq_6 {x : Int} (h0 : 0x7ffffffff < x) (h : x ≤ 0x3ffffffffff) : varint_size x = 6 := by
  unfold varint_size
  split_ifs <;> omega

theorem varint_size_eq_7 {x : Int} (h0 : 0x3ffffffffff < x) (h : x ≤ 0x1ffffffffffff) : varint_size x = 7 := by
  unfold varint_size
  split_ifs <;> omega

theorem varint_size_eq_8 {x : Int} (h0 : 0x1ffffffffffff < x) (h : x ≤ 0xffffffffffffff) : varint_size x = 8 := by
  unfold varint_size
  split_ifs <;> omega

theorem varint_size_eq_9 {x : Int} (h0 : 0xffffffffffffff < x) (h : x ≤ 0x7fffffffffffffff) : varint_size x = 9 := by
  unfold varint_size
  split_ifs <;> omega

theorem varint_size_eq_10 {x : Int} (h0 : 0x7fffffffffffffff < x) (h : x ≤ 0x3fffffffffffffffff) : varint_size x = 10 := by
  unfold varint_size
  split_ifs <;> omega

theorem varint_size_div_step (v : Nat) (h127 : 127 < v) (h70 : v < 2 ^ 70) :
    varint_size ((v / 128 : Nat) : Int) + 1 = varint_size (v : Int) := by
  by_cases c2 : v ≤ 0x3fff
  · rw [varint_size_eq_1 (by omega) (by omega), varint_size_eq_2 (by omega) (by omega)]
  by_cases c3 : v ≤ 0x1fffff
  · rw [varint_size_eq_2 (by omega) (by omega), varint_size_eq_3 (by omega) (by omega)]
  by_cases c4 : v ≤ 0xfffffff
  · rw [varint_size_eq_3 (by omega) (by omega), varint_size_eq_4 (by omega) (by omega)]
  by_cases c5 : v ≤ 0x7ffffffff
  · rw [varint_size_eq_4 (by omega) (by omega), varint_size_eq_5 (by omega) (by omega)]
  by_cases c6 : v ≤ 0x3ffffffffff
  · rw [varint_size_eq_5 (by omega) (by omega), varint_size_eq_6 (by omega) (by omega)]
  by_cases c7 : v ≤ 0x1ffffffffffff
  · rw [varint_size_eq_6 (by omega) (by omega), varint_size_eq_7 (by omega) (by omega)]
  by_cases c8 : v ≤ 0xffffffffffffff
  · rw [varint_size_eq_7 (by omega) (by omega), varint_size_eq_8 (by omega) (by omega)]
  by_cases c9 : v ≤ 0x7fffffffffffffff
  · rw [varint_size_eq_8 (by omega) (by omega), varint_size_eq_9 (by omega) (by omega)]
  rw [varint_size_eq_9 (by omega) (by omega), varint_size_eq_10 (by omega) (by omega)]

theorem varint_size_le_ten {x : Int} (h0 : 0 ≤ x) (h70 : x < 2 ^ 70) :
    varint_size x ≤ 10 := by
  by_cases c1 : x ≤ 0x7f
  · rw [varint_size_eq_1 h0 c1]
    norm_num
  by_cases c2 : x ≤ 0x3fff
  · rw [varint_size_eq_2 (by omega) c2]
    norm_num
  by_cases c3 : x ≤ 0x1fffff
  · rw [varint_size_eq_3 (by omega) c3]
    norm_num
  by_cases c4 : x ≤ 0xfffffff
  · rw [varint_size_eq_4 (by omega) c4]
    norm_num
  by_cases c5 : x ≤ 0x7ffffffff
  · rw [varint_size_eq_5 (by omega) c5]
    norm_num
  by_cases c6 : x ≤ 0x3ffffffffff
  · rw [varint_size_eq_6 (by omega) c6]
    norm_num
  by_cases c7 : x ≤ 0x1ffffffffffff
  · rw [varint_size_eq_7 (by omega) c7]
    norm_num
  by_cases c8 : x ≤ 0xffffffffffffff
  · rw [varint_size_eq_8 (by omega) c8]
    norm_num
  by_cases c9 : x ≤ 0x7fffffffffffffff
  · rw [varint_size_eq_9 (by omega) c9]
    norm_num
  rw [varint_size_eq_10 (by omega) (by omega)]

theorem write_varint_length (v : Nat) (h : v < 2 ^ 70) :
    (write_varint v).length = varint_size v := by
  induction v using Nat.strong_induction_on with
  | _ v ih =>
    rw [write_varint_eq]
    by_cases h127 : 127 < v
    · have hdiv : v / 128 % 2 ^ 63 = v / 128 := by
        apply Nat.mod_eq_of_lt
        omega
      have hlt : v / 128 < v := by omega
      have hsub : v / 128 < 2 ^ 70 := by omega
      rw [if_pos h127, List.length_cons, hdiv, ih (v / 128) hlt hsub]
      exact varint_size_div_step v h127 h
    · rw [if_neg h127, List.length_singleton, varint_size_eq_1 (by omega) (by omega)]

theorem and_128_of_lt {c : Nat} (h : c < 128) : c &&& 128 = 0 := by
  apply Nat.eq_of_testBit_eq
  intro i
  rw [Nat.testBit_land, Nat.zero_testBit]
  by_cases h7 : i = 7
  · subst h7
    have h' : c < 2 ^ 7 := by omega
    rw [Nat.testBit_lt_two_pow h']
    simp
  · have h128 : (128 : Nat) = 2 ^ 7 := by norm_num
    rw [h128, Nat.testBit_two_pow_of_ne (by omega)]
    simp

theorem add_128_lor {c : Nat} (h : c < 128) : c + 128 = 128 ||| c := by
  have h' : c < 2 ^ 7 := by omega
  have := Nat.mul_add_lt_is_or h' 1
  norm_num at this
  omega

theorem cont_and_128 {c : Nat} (h : c < 128) : (c + 128) &&& 128 = 128 := by
  rw [add_128_lor h, Nat.and_distrib_right, and_128_of_lt h]
  decide

theorem cont_and_127 {c : Nat} (h : c < 128) : (c + 128) &&& 127 = c := by
  rw [add_128_lor h, Nat.and_distrib_right]
  have h1 : (128 : Nat) &&& 127 = 0 := by decide
  have h2 : c &&& 127 = c := by
    have h127 : (127 : Nat) = 2 ^ 7 - 1 := by norm_num
    rw [h127, Nat.and_pow_two_sub_one_eq_mod, Nat.mod_eq_of_lt (by omega)]
  rw [h1, h2]
  simp

theorem lor_shiftLeft_eq_add {a b n : Nat} (h : a < 2 ^ n) :
    a ||| (b <<< n) = a + b * 2 ^ n := by
  rw [Nat.shiftLeft_eq, Nat.lor_comm]
  have := Nat.mul_add_lt_is_or h b
  rw [Nat.mul_comm] at this
  omega

theorem wsub32_one {limit : Nat} (h1 : 1 ≤ limit) (h2 : limit ≤ 2 ^ 32) :
    wsub32 limit 1 = limit - 1 := by
  unfold wsub32
  have e1 : (1 : Nat) % 2 ^ 32 = 1 := by norm_num
  rw [e1]
  have e2 : limit + 2 ^ 32 - 1 = (limit - 1) + 2 ^ 32 := by omega
  rw [e2, Nat.add_mod_right]
  exact Nat.mod_eq_of_lt (by omega)

theorem read_write_varint_aux (v : Nat) :
    ∀ (value bitsRead limit pos : Nat) (rest : List Nat),
      v < 2 ^ 70 →
      value < 2 ^ bitsRead →
      bitsRead + 7 * ((write_varint v).length - 1) ≤ 63 →
      (write_varint v).length ≤ limit →
      limit ≤ 2 ^ 32 →
      read_varint_aux (write_varint v ++ rest) pos limit value bitsRead =
        .ok (value + v * 2 ^ bitsRead, rest,
             pos + (write_varint v).length, limit - (write_varint v).length) := by
  induction v using Nat.strong_induction_on with
  | _ v ih =>
    intro value bitsRead limit pos rest hv70 hvl hbits hlim hlim32
    by_cases h127 : 127 < v
    · have hdiv : v / 128 % 2 ^ 63 = v / 128 := Nat.mod_eq_of_lt (by omega)
      have hw : write_varint v = (v % 128 + 128) :: write_varint (v / 128) := by
        rw [write_varint_eq, if_pos h127, hdiv]
      rw [hw] at hbits hlim ⊢
      simp only [List.length_cons] at hbits hlim
      have hlen1 : 1 ≤ (write_varint (v / 128)).length := by
        have hne := write_varint_nonempty (v / 128)
        cases hwv : write_varint (v / 128) with
        | nil => exact absurd hwv hne
        | cons a l => simp
      have hm : v % 128 < 128 := Nat.mod_lt _ (by norm_num)
      have hc : ¬((v % 128 + 128) &&& 0x80 = 0) := by
        rw [cont_and_128 hm]
        omega
      have hwsub : wsub32 limit 1 = limit - 1 := wsub32_one (by omega) hlim32
      have hlimne : ¬(wsub32 limit 1 = 0) := by omega
      have hbr : ¬(64 - 8 < bitsRead) := by omega
      show read_varint_aux ((v % 128 + 128) :: (write_varint (v / 128) ++ rest)) pos limit value bitsRead = _
      rw [read_varint_aux, if_neg hc, if_neg hlimne, if_neg hbr, cont_and_127 hm]
      have hval' : value ||| ((v % 128) <<< bitsRead) = value + v % 128 * 2 ^ bitsRead :=
        @lor_shiftLeft_eq_add value (v % 128) bitsRead hvl
      rw [hval', hwsub]
      have hrec := ih (v / 128) (by omega) (value + v % 128 * 2 ^ bitsRead) (bitsRead + 7)
        (limit - 1) (pos + 1) rest (by omega)
        (by
          have hp : (2 : Nat) ^ (bitsRead + 7) = 2 ^ bitsRead * 128 := by
            rw [pow_add]
            norm_num
          rw [hp]
          nlinarith [Nat.two_pow_pos bitsRead])
        (by omega) (by omega) (by omega)
      rw [hrec]
      have hkey : value + v % 128 * 2 ^ bitsRead + v / 128 * 2 ^ (bitsRead + 7) =
          value + v * 2 ^ bitsRead := by
        have hmd := Nat.mod_add_div v 128
        have hp : (2 : Nat) ^ (bitsRead + 7) = 2 ^ bitsRead * 128 := by
          rw [pow_add]
          norm_num
        rw [hp]
        calc value + v % 128 * 2 ^ bitsRead + v / 128 * (2 ^ bitsRead * 128)
            = value + (v % 128 + 128 * (v / 128)) * 2 ^ bitsRead := by ring
          _ = value + v * 2 ^ bitsRead := by rw [hmd]
      rw [hkey]
      have hfin : limit - 1 - (write_varint (v / 128)).length =
          limit - ((write_varint (v / 128)).length + 1) := by omega
      have hpos : pos + 1 + (write_varint (v / 128)).length =
          pos + ((write_varint (v / 128)).length + 1) := by omega
      rw [hfin, hpos]
      simp [List.length_cons]
    · have hw : write_varint v = [v] := by
        rw [write_varint_eq, if_neg h127]
      rw [hw] at hbits hlim ⊢
      have hc : v &&& 0x80 = 0 := and_128_of_lt (by omega)
      show read_varint_aux (v :: rest) pos limit value bitsRead = _
      rw [read_varint_aux, if_pos hc, lor_shiftLeft_eq_add hvl]
      simp only [List.length_singleton] at hlim ⊢
      rw [wsub32_one (by omega) hlim32]

theorem varint_overflow_aux (k : Nat) :
    ∀ (bs : List Nat) (pos limit value bitsRead : Nat),
      1 ≤ k → k ≤ bs.length →
      (∀ b ∈ bs.take k, 128 ≤ b ∧ b < 256) →
      56 < bitsRead + 7 * (k - 1) →
      ∃ e, read_varint_aux bs pos limit value bitsRead = .error e := by
  induction k with
  | zero =>
    intro bs pos limit value bitsRead h1 _ _ _
    omega
  | succ k ih =>
    intro bs pos limit value bitsRead _ hlen hcont hbits
    match bs with
    | [] => simp at hlen
    | b :: rest =>
      have hb : 128 ≤ b ∧ b < 256 := hcont b (by simp)
      have hbc : ¬(b &&& 0x80 = 0) := by
        have hb' : b = (b - 128) + 128 := by omega
        rw [hb', cont_and_128 (by omega)]
        omega
      rw [read_varint_aux, if_neg hbc]
      by_cases hl : wsub32 limit 1 = 0
      · exact ⟨.unexpectedEof, by rw [if_pos hl]⟩
      · rw [if_neg hl]
        by_cases hbr : 64 - 8 < bitsRead
        · exact ⟨.varintOverflow, by rw [if_pos hbr]⟩
        · rw [if_neg hbr]
          by_cases hk : k = 0
          · omega
          · apply ih rest (pos + 1) (wsub32 limit 1)
              (value ||| ((b &&& 0x7f) <<< bitsRead)) (bitsRead + 7) (by omega)
              (by simp only [List.length_cons] at hlen; omega)
              (fun b' hb' => hcont b' (by simp only [List.take_succ_cons]; right; exact hb'))
              (by omega)

theorem varint_limit_exhaust_aux (bs : List Nat) :
    ∀ (pos limit value bitsRead : Nat),
      1 ≤ limit → limit ≤ 2 ^ 32 → limit ≤ bs.length →
      (∀ b ∈ bs.take limit, 128 ≤ b ∧ b < 256) →
      ∃ e, read_varint_aux bs pos limit value bitsRead = .error e := by
  induction bs with
  | nil =>
    intro pos limit value bitsRead h1 _ hlen _
    simp at hlen
    omega
  | cons b rest ih =>
    intro pos limit value bitsRead h1 h32 hlen hcont
    obtain ⟨l, rfl⟩ : ∃ l, limit = l + 1 := ⟨limit - 1, by omega⟩
    have hb : 128 ≤ b ∧ b < 256 := hcont b (by simp)
    have hbc : ¬(b &&& 0x80 = 0) := by
      have hb' : b = (b - 128) + 128 := by omega
      rw [hb', cont_and_128 (by omega)]
      omega
    rw [read_varint_aux, if_neg hbc]
    have hwsub : wsub32 (l + 1) 1 = l := by
      have := @wsub32_one (l + 1) (by omega) h32
      omega
    by_cases hl : l = 0
    · exact ⟨.unexpectedEof, by rw [if_pos (by omega)]⟩
    · have hlne : ¬(wsub32 (l + 1) 1 = 0) := by omega
      rw [if_neg hlne]
      by_cases hbr : 64 - 8 < bitsRead
      · exact ⟨.varintOverflow, by rw [if_pos hbr]⟩
      · rw [if_neg hbr, hwsub]
        apply ih (pos + 1) l (value ||| ((b &&& 0x7f) <<< bitsRead)) (bitsRead + 7)
          (by omega) (by omega)
          (by simp only [List.length_cons] at hlen; omega)
        intro b' hb'
        exact hcont b' (by simp only [List.take_succ_cons]; right; exact hb')

/-- C2: for every `v < 2 ^ 70`, decoding the bytes of `write_varint v` with
`read_varint` returns `v` (consuming exactly the written bytes from the
position counter and the budget), and the number of bytes written matches
the boundary table of `ScalarValue::varint_size`; any input whose first ten
bytes are all continuation bytes (so in particular a varint of eleven
continuation bytes) is rejected, and so is any input whose `limit` budget
reaches zero before a terminating byte arrives. -/
theorem C2_varint_law :
    (∀ v : Nat, v < 2 ^ 70 →
      (∀ (rest : List Nat) (pos limit : Nat),
        (write_varint v).length ≤ limit → limit ≤ 2 ^ 32 →
        read_varint (write_varint v ++ rest) pos limit =
          .ok (v, rest, pos + (write_varint v).length,
               limit - (write_varint v).length)) ∧
      (write_varint v).length = varint_size v) ∧
    (∀ (bs : List Nat) (pos limit : Nat),
      10 ≤ bs.length → (∀ b ∈ bs.take 10, 128 ≤ b ∧ b < 256) →
      ∃ e, read_varint bs pos limit = .error e) ∧
    (∀ (bs : List Nat) (pos limit : Nat),
      1 ≤ limit → limit ≤ 2 ^ 32 → limit ≤ bs.length →
      (∀ b ∈ bs.take limit, 128 ≤ b ∧ b < 256) →
      ∃ e, read_varint bs pos limit = .error e) := by
  refine ⟨fun v hv => ⟨fun rest pos limit hlim h32 => ?_, write_varint_length v hv⟩,
    fun bs pos limit hlen hcont => ?_, fun bs pos limit h1 h32 hlen hcont => ?_⟩
  · have h := read_write_varint_aux v 0 0 limit pos rest hv (by norm_num)
      (by
        have h1 : (write_varint v).length = varint_size v := write_varint_length v hv
        have h2 : varint_size (v : Int) ≤ 10 := varint_size_le_ten (by omega) (by push_cast; omega)
        omega)
      hlim h32
    simpa [read_varint] using h
  · exact varint_overflow_aux 10 bs pos limit 0 0 (by omega) hlen hcont (by omega)
  · exact varint_limit_exhaust_aux bs pos limit 0 0 h1 h32 hlen hcont

/-- Concrete instantiation of `C2_varint_law`: the two-byte varint of 300
round-trips, the boundary value 16384 takes three bytes, eleven
continuation bytes fail, and a budget exhausted mid-varint fails. -/
theorem C2_varint_law_witness :
    read_varint (write_varint 300 ++ [7]) 0 5 = .ok (300, [7], 2, 3) ∧
    (write_varint 16384).length = varint_size 16384 ∧
    (∃ e, read_varint (List.replicate 11 255) 0 4096 = .error e) ∧
    (∃ e, read_varint [150, 1] 0 1 = .error e) := by
  refine ⟨?_, ?_, ?_, ?_⟩
  · have h := (C2_varint_law.1 300 (by norm_num)).1 [7] 0 5 (by decide) (by norm_num)
    simpa using h
  · exact (C2_varint_law.1 16384 (by norm_num)).2
  · exact C2_varint_law.2.1 (List.replicate 11 255) 0 4096 (by decide) (by decide)
  · exact C2_varint_law.2.2 [150, 1] 0 1 (by decide) (by decide) (by decide) (by decide)

/-! Zigzag codec (`SInt32FieldProto` / `SInt64FieldProto`). -/

/-- Two's-complement wrap into `i32` (release-mode overflow semantics). -/
def wrap32 (x : Int) : Int :=
  (x + ((2 ^ 31 : Nat) : Int)) % ((2 ^ 32 : Nat) : Int) - ((2 ^ 31 : Nat) : Int)

/-- Two's-complement wrap into `i64` (release-mode overflow semantics). -/
def wrap64 (x : Int) : Int :=
  (x + ((2 ^ 63 : Nat) : Int)) % ((2 ^ 64 : Nat) : Int) - ((2 ^ 63 : Nat) : Int)

/-- `u32` image of an `i32` value. -/
def toU32 (x : Int) : Nat :=
  (x % ((2 ^ 32 : Nat) : Int)).toNat

/-- `u64` image of an `i64` value. -/
def toU64 (x : Int) : Nat :=
  (x % ((2 ^ 64 : Nat) : Int)).toNat

/-- Truncating cast of an `i128` value into `i64` (`as i64`). -/
def toI64 (x : Int) : Int :=
  (x + ((2 ^ 63 : Nat) : Int)) % ((2 ^ 64 : Nat) : Int) - ((2 ^ 63 : Nat) : Int)

/-- The `i32` local `zigzag` computed by `SInt32FieldProto::write`:
`if value >= 0 { value << 1 } else { 1 + ((-value) << 1) }`, with every
`i32` operation wrapped. -/
def sint32_zigzag_i32 (value : Int) : Int :=
  if 0 ≤ value then wrap32 (value * 2)
  else wrap32 (1 + wrap32 (wrap32 (-value) * 2))

/-- Bytes emitted by `SInt32FieldProto::write` for `ScalarValue::S32 value`:
`write_varint(zigzag as u32 as i128)`. -/
def sint32_write_bytes (value : Int) : List Nat :=
  write_varint (toU32 (sint32_zigzag_i32 value))

/-- Value decoded by `SInt32FieldProto::read` from the varint `zigzag`
(the nonnegative `i128` delivered by `read_varint`).  The final `as i32`
cast is the identity because both branches stay within `i32` range. -/
def sint32_read_value (zigzag : Nat) : Int :=
  if zigzag &&& 1 ≠ 0 then -((((zigzag >>> 1) &&& 0x7fffffff : Nat) : Int))
  else (((zigzag >>> 1) &&& 0x7fffffff : Nat) : Int)

/-- The `i64` local `zigzag` computed by `SInt64FieldProto::write`. -/
def sint64_zigzag_i64 (value : Int) : Int :=
  if 0 ≤ value then wrap64 (value * 2)
  else wrap64 (1 + wrap64 (wrap64 (-value) * 2))

/-- Bytes emitted by `SInt64FieldProto::write` for `ScalarValue::S64 value`. -/
def sint64_write_bytes (value : Int) : List Nat :=
  write_varint (toU64 (sint64_zigzag_i64 value))

/-- Value decoded by `SInt64FieldProto::read` from the varint `zigzag`:
`if zigzag & 1 != 0 { -(zigzag >> 1) } else { zigzag >> 1 } as i64`. -/
def sint64_read_value (zigzag : Nat) : Int :=
  toI64 (if zigzag &&& 1 ≠ 0 then -(((zigzag >>> 1 : Nat) : Int))
         else ((zigzag >>> 1 : Nat) : Int))

theorem shiftRight_one_eq_div (z : Nat) : z >>> 1 = z / 2 := by
  rw [Nat.shiftRight_eq_div_pow, pow_one]

theorem and_mask31_eq_mod (z : Nat) : z &&& 0x7fffffff = z % 2 ^ 31 := by
  have h : (0x7fffffff : Nat) = 2 ^ 31 - 1 := by norm_num
  rw [h, Nat.and_pow_two_sub_one_eq_mod]

/-- C3 counterexample: for `n = -1` the code's sint32 zigzag image is 3
(`1 + 2·|n|`), so the emitted bytes are the varint of 3, not the varint of
`-2·n - 1 = 1` stated by the claim. -/
theorem C3_zigzag_counterexample :
    sint32_write_bytes (-1) = [3] ∧
    write_varint ((-2 * (-1 : Int) - 1).toNat) = [1] ∧
    ([3] : List Nat) ≠ [1] := by
  refine ⟨?_, by decide, by decide⟩
  show write_varint (toU32 (sint32_zigzag_i32 (-1))) = [3]
  have h : sint32_zigzag_i32 (-1) = 3 := by decide
  rw [h]
  decide

/-- C3 amended: over the declared value ranges, `SInt32FieldProto::write`
and `SInt64FieldProto::write` emit the varint of the zigzag image `2·n`
for `n ≥ 0` and `2·(-n) + 1` (not `-2·n - 1`) for `n < 0`, and the
corresponding reads invert this mapping, so decode ∘ encode is the
identity on the declared ranges. -/
theorem C3_zigzag_amended (n : Int) :
    (-(2 ^ 31 - 1) ≤ n → n ≤ 2 ^ 31 - 1 →
      (0 ≤ n → sint32_write_bytes n = write_varint ((2 * n).toNat)) ∧
      (n < 0 → sint32_write_bytes n = write_varint ((2 * (-n) + 1).toNat)) ∧
      sint32_read_value (toU32 (sint32_zigzag_i32 n)) = n) ∧
    (-(2 ^ 63 - 1) ≤ n → n ≤ 2 ^ 63 - 1 →
      (0 ≤ n → sint64_write_bytes n = write_varint ((2 * n).toNat)) ∧
      (n < 0 → sint64_write_bytes n = write_varint ((2 * (-n) + 1).toNat)) ∧
      sint64_read_value (toU64 (sint64_zigzag_i64 n)) = n) := by
  constructor
  · intro hlo hhi
    by_cases hn : 0 ≤ n
    · have himg : toU32 (sint32_zigzag_i32 n) = (2 * n).toNat := by
        unfold sint32_zigzag_i32 wrap32 toU32
        rw [if_pos hn]
        omega
      refine ⟨fun _ => by rw [sint32_write_bytes, himg], fun hneg => absurd hneg (by omega), ?_⟩
      rw [himg]
      unfold sint32_read_value
      have h2 : (2 * n).toNat &&& 1 = 0 := by
        rw [Nat.and_one_is_mod]
        omega
      rw [if_neg (by omega)]
      rw [shiftRight_one_eq_div, and_mask31_eq_mod]
      omega
    · have himg : toU32 (sint32_zigzag_i32 n) = (2 * (-n) + 1).toNat := by
        unfold sint32_zigzag_i32 wrap32 toU32
        rw [if_neg hn]
        omega
      refine ⟨fun hpos => absurd hpos hn, fun _ => by rw [sint32_write_bytes, himg], ?_⟩
      rw [himg]
      unfold sint32_read_value
      have h2 : (2 * (-n) + 1).toNat &&& 1 = 1 := by
        rw [Nat.and_one_is_mod]
        omega
      rw [if_pos (by omega)]
      rw [shiftRight_one_eq_div, and_mask31_eq_mod]
      omega
  · intro hlo hhi
    by_cases hn : 0 ≤ n
    · have himg : toU64 (sint64_zigzag_i64 n) = (2 * n).toNat := by
        unfold sint64_zigzag_i64 wrap64 toU64
        rw [if_pos hn]
        omega
      refine ⟨fun _ => by rw [sint64_write_bytes, himg], fun hneg => absurd hneg (by omega), ?_⟩
      rw [himg]
      unfold sint64_read_value
      have h2 : (2 * n).toNat &&& 1 = 0 := by
        rw [Nat.and_one_is_mod]
        omega
      rw [if_neg (by omega)]
      rw [shiftRight_one_eq_div]
      unfold toI64
      omega
    · have himg : toU64 (sint64_zigzag_i64 n) = (2 * (-n) + 1).toNat := by
        unfold sint64_zigzag_i64 wrap64 toU64
        rw [if_neg hn]
        omega
      refine ⟨fun hpos => absurd hpos hn, fun _ => by rw [sint64_write_bytes, himg], ?_⟩
      rw [himg]
      unfold sint64_read_value
      have h2 : (2 * (-n) + 1).toNat &&& 1 = 1 := by
        rw [Nat.and_one_is_mod]
        omega
      rw [if_pos (by omega)]
      rw [shiftRight_one_eq_div]
      unfold toI64
      omega

/-- Concrete instantiation of `C3_zigzag_amended` at `n = -5` and `n = 6`. -/
theorem C3_zigzag_amended_witness :
    sint32_write_bytes (-5) = write_varint ((2 * (-(-5 : Int)) + 1).toNat) ∧
    sint32_read_value (toU32 (sint32_zigzag_i32 (-5))) = -5 ∧
    sint64_write_bytes 6 = write_varint ((2 * (6 : Int)).toNat) ∧
    sint64_read_value (toU64 (sint64_zigzag_i64 6)) = 6 := by
  have h32 := (C3_zigzag_amended (-5)).1 (by norm_num) (by norm_num)
  have h64 := (C3_zigzag_amended 6).2 (by norm_num) (by norm_num)
  exact ⟨h32.2.1 (by norm_num), h32.2.2, h64.1 (by norm_num), h64.2.2⟩

/-! Schema model (`proto.rs` after `finalize`): message and field
descriptors.  The `Rc`/`OnceCell` links of `EnumOrMessageFieldDefinition`
are modelled by storing the resolved user-type name and looking it up in
`ProtoData` (after `finalize` the message list is sorted by name and
`binary_search` coincides with a linear name lookup). -/

/-- Resolved type of a field (`typedefs.rs` field-proto structs). -/
inductive FieldType where
  | int32 | uint32 | sint32 | fixed32 | sfixed32
  | int64 | uint64 | sint64 | fixed64 | sfixed64
  | float | double | bool | str | bytes
  | enum (typeName : String) (variants : List (String × Int))
  | message (typeName : String)
  | unknownTy
deriving DecidableEq

/-- A field descriptor: `CommonFieldProto` plus the per-type strategy. -/
structure FieldProto where
  name : String
  id : Int
  repeated : Bool
  type : FieldType
deriving DecidableEq

/-- `MessageProto`. -/
structure MessageProto where
  name : String
  fields : List FieldProto
deriving DecidableEq

/-- `ProtoData` (after `finalize`). -/
structure ProtoData where
  messages : List MessageProto
  unknown_field : FieldProto
deriving DecidableEq

/-- `UnknownFieldDefinition::new()`. -/
def unknown_field_proto : FieldProto :=
  { name := "???", id := 0, repeated := true, type := .unknownTy }

/-- `ProtoData::get_message_definition` (binary search over the sorted,
deduplicated message list, modelled as a name lookup). -/
def ProtoData.get_message_definition (p : ProtoData) (name : String) : Option MessageProto :=
  p.messages.find? (fun m => m.name = name)

/-- `MessageProto::get_field`: first field with the given number. -/
def MessageProto.get_field (m : MessageProto) (number : Int) : Option FieldProto :=
  m.fields.find? (fun f => f.id = number)

/-- `FieldProto::wire_type`.  `UnknownFieldDefinition::wire_type` panics
("wire type unknown"); it is never queried on the verified paths and is
modelled as 0. -/
def FieldProto.wire_type (f : FieldProto) : Nat :=
  match f.type with
  | .fixed32 | .sfixed32 | .float => 5
  | .fixed64 | .sfixed64 | .double => 1
  | .str | .bytes | .message _ => 2
  | _ => 0

/-- `FieldProto::typename`. -/
def FieldProto.typename (f : FieldProto) : String :=
  match f.type with
  | .int32 => "int32"
  | .uint32 => "uint32"
  | .sint32 => "sint32"
  | .fixed32 => "fixed32"
  | .sfixed32 => "sfixed32"
  | .int64 => "int64"
  | .uint64 => "uint64"
  | .sint64 => "sint64"
  | .fixed64 => "fixed64"
  | .sfixed64 => "sfixed64"
  | .float => "float"
  | .double => "double"
  | .bool => "bool"
  | .str => "string"
  | .bytes => "bytes"
  | .enum n _ => n
  | .message n => n
  | .unknownTy => "unknown"

/-- `FieldProto::is_message`. -/
def FieldProto.is_message (f : FieldProto) : Bool :=
  match f.type with
  | .message _ => true
  | _ => false

/-- `FieldProto::get_enum_name_by_index`. -/
def FieldProto.get_enum_name_by_index (f : FieldProto) (i : Int) : Option String :=
  match f.type with
  | .enum _ variants => (variants.find? (fun v => v.2 = i)).map (·.1)
  | _ => none

/-! Wire-format tags and scalar values (`wire.rs`). -/

/-- `Tag`: the decoded tag varint (`first_number : i32`) and the payload
length (`length : u32`, zero for non-length-delimited kinds). -/
structure Tag where
  first_number : Int
  length : Nat
deriving DecidableEq

/-- Truncating cast of an integer into `i32` (`as i32`). -/
def toI32 (x : Int) : Int :=
  (x + ((2 ^ 31 : Nat) : Int)) % ((2 ^ 32 : Nat) : Int) - ((2 ^ 31 : Nat) : Int)

/-- Truncating cast of an integer into `i128`
(`i128::from_le_bytes` of a 16-byte buffer, given its `u128` image). -/
def toI128 (n : Nat) : Int :=
  if n % 2 ^ 128 < 2 ^ 127 then (n % 2 ^ 128 : Nat)
  else (n % 2 ^ 128 : Nat) - ((2 ^ 128 : Nat) : Int)

/-- `Tag::field_id`: `first_number >> 3` (arithmetic shift = floor
division). -/
def Tag.field_id (t : Tag) : Int :=
  t.first_number / 8

/-- `Tag::wire_type`: `(first_number & 7) as u8`. -/
def Tag.wire_type (t : Tag) : Nat :=
  (t.first_number % 8).toNat

/-- `Tag::auto_length`: true for VARINT/I64/I32, false for LEN; the group
kinds panic in the source and are unreachable past `read_tag`. -/
def Tag.auto_length (t : Tag) : Bool :=
  t.wire_type = 0 || t.wire_type = 1 || t.wire_type = 5

/-- `ScalarValue`.  Floating-point payloads (`F32`/`F64`) are modelled by
their raw little-endian payload bytes: the source only moves them between
`from_le_bytes` and `to_le_bytes`, which is byte-identical.  `STR` holds
the UTF-8 bytes of the Rust `String`. -/
inductive ScalarValue where
  | I32 (v : Int)
  | U32 (v : Nat)
  | S32 (v : Int)
  | UF32 (v : Nat)
  | SF32 (v : Int)
  | I64 (v : Int)
  | U64 (v : Nat)
  | S64 (v : Int)
  | UF64 (v : Nat)
  | SF64 (v : Int)
  | F32 (bits : List Nat)
  | F64 (bits : List Nat)
  | BOOL (b : Bool)
  | ENUM (v : Int)
  | STR (s : List Nat)
  | BYTES (bs : List Nat)
  | UNKNOWN (tag : Tag) (bs : List Nat)
  | DELETED
deriving DecidableEq

mutual
/-- `FieldValue`. -/
inductive FieldValue where
  | SCALAR (s : ScalarValue)
  | MESSAGE (m : MessageData)

/-- `FieldData`: descriptor, original read position (`usize::MAX` for new
data) and value. -/
inductive FieldData where
  | mk (defn : FieldProto) (pos : Nat) (value : FieldValue)

/-- `MessageData`: descriptor plus decoded fields in decode/append order. -/
inductive MessageData where
  | mk (defn : MessageProto) (fields : List FieldData)
end

def FieldData.defn : FieldData → FieldProto
  | .mk d _ _ => d

def FieldData.pos : FieldData → Nat
  | .mk _ p _ => p

def FieldData.value : FieldData → FieldValue
  | .mk _ _ v => v

def MessageData.defn : MessageData → MessageProto
  | .mk d _ => d

def MessageData.fields : MessageData → List FieldData
  | .mk _ fs => fs

/-- `usize::MAX`, the sentinel position of newly inserted fields. -/
def usize_max : Nat := 2 ^ 64 - 1

/-- `FieldData::id`: the tag's field number for unknown fields, the
descriptor's number otherwise. -/
def FieldData.id (f : FieldData) : Int :=
  match f.value with
  | .SCALAR (.UNKNOWN tag _) => tag.field_id
  | _ => f.defn.id

/-! Byte-level helpers for the fixed-width codecs. -/

/-- Little-endian byte decoding (`uNN::from_le_bytes`). -/
def leToNat : List Nat → Nat
  | [] => 0
  | b :: rest => b + 256 * leToNat rest

/-- Little-endian byte encoding of the low `w` bytes (`to_le_bytes`). -/
def natToLe : Nat → Nat → List Nat
  | 0, _ => []
  | w + 1, v => v % 256 :: natToLe w (v / 256)

/-- `PbReader::read_len`: checks the budget, then consumes exactly
`length` bytes (`read_exact` fails if the source is shorter). -/
def read_len (data : List Nat) (pos : Nat) (length limit : Nat) :
    Except PbError (List Nat × List Nat × Nat × Nat) :=
  if length ≤ limit then
    if length ≤ data.length then
      .ok (data.take length, data.drop length, pos + length, limit - length)
    else
      .error .readExactEof
  else
    .error .truncatedInput

/-- `PbReader::read_tag`: a tag varint, then for `WT_LEN` a length varint
(`as u32`); group kinds are rejected. -/
def read_tag (data : List Nat) (pos limit : Nat) :
    Except PbError (Tag × List Nat × Nat × Nat) :=
  match read_varint data pos limit with
  | .error e => .error e
  | .ok (v, d1, p1, l1) =>
    if (toI32 v % 8).toNat = 0 then .ok (⟨toI32 v, 0⟩, d1, p1, l1)
    else if (toI32 v % 8).toNat = 5 then .ok (⟨toI32 v, 4⟩, d1, p1, l1)
    else if (toI32 v % 8).toNat = 1 then .ok (⟨toI32 v, 8⟩, d1, p1, l1)
    else if (toI32 v % 8).toNat = 2 then
      match read_varint d1 p1 l1 with
      | .error e => .error e
      | .ok (l, d2, p2, l2) => .ok (⟨toI32 v, l % 2 ^ 32⟩, d2, p2, l2)
    else if (toI32 v % 8).toNat = 3 ∨ (toI32 v % 8).toNat = 4 then .error .unsupported
    else .error .invalidData

/-- Continuation-byte test of the UTF-8 validation (`0x80..=0xBF`). -/
def utf8_cont (b : Nat) : Bool :=
  128 ≤ b && b ≤ 0xbf

/-- Validity check of `String::from_utf8` (the standard UTF-8 acceptance
table: no overlong forms, no surrogates, at most U+10FFFF). -/
def isValidUtf8 : List Nat → Bool
  | [] => true
  | b :: rest =>
    if b ≤ 0x7f then isValidUtf8 rest
    else if 0xc2 ≤ b && b ≤ 0xdf then
      match rest with
      | c1 :: r => utf8_cont c1 && isValidUtf8 r
      | [] => false
    else if b = 0xe0 then
      match rest with
      | c1 :: c2 :: r => (0xa0 ≤ c1 && c1 ≤ 0xbf) && utf8_cont c2 && isValidUtf8 r
      | _ => false
    else if (0xe1 ≤ b && b ≤ 0xec) || b = 0xee || b = 0xef then
      match rest with
      | c1 :: c2 :: r => utf8_cont c1 && utf8_cont c2 && isValidUtf8 r
      | _ => false
    else if b = 0xed then
      match rest with
      | c1 :: c2 :: r => (0x80 ≤ c1 && c1 ≤ 0x9f) && utf8_cont c2 && isValidUtf8 r
      | _ => false
    else if b = 0xf0 then
      match rest with
      | c1 :: c2 :: c3 :: r =>
        (0x90 ≤ c1 && c1 ≤ 0xbf) && utf8_cont c2 && utf8_cont c3 && isValidUtf8 r
      | _ => false
    else if 0xf1 ≤ b && b ≤ 0xf3 then
      match rest with
      | c1 :: c2 :: c3 :: r =>
        utf8_cont c1 && utf8_cont c2 && utf8_cont c3 && isValidUtf8 r
      | _ => false
    else if b = 0xf4 then
      match rest with
      | c1 :: c2 :: c3 :: r =>
        (0x80 ≤ c1 && c1 ≤ 0x8f) && utf8_cont c2 && utf8_cont c3 && isValidUtf8 r
      | _ => false
    else false

/-- UTF-8 bytes of the fallback text `"wrong unicode data"` substituted by
`StringFieldDefinition::read` on invalid input. -/
def wrong_unicode_data : List Nat :=
  [119, 114, 111, 110, 103, 32, 117, 110, 105, 99, 111, 100, 101, 32, 100, 97, 116, 97]

/-- `FieldProto::read` dispatched over the field type (payload only).
Message-typed and unknown-typed descriptors panic in the source
(`read incomplete field definition` / `unreachable!()`). -/
def FieldProto.read (f : FieldProto) (data : List Nat) (pos limit field_len : Nat) :
    Except PbError (ScalarValue × List Nat × Nat × Nat) :=
  match f.type with
  | .int32 =>
    match read_varint data pos limit with
    | .error e => .error e
    | .ok (v, d, p, l) => .ok (.I32 (toI32 v), d, p, l)
  | .uint32 =>
    match read_varint data pos limit with
    | .error e => .error e
    | .ok (v, d, p, l) => .ok (.U32 (v % 2 ^ 32), d, p, l)
  | .sint32 =>
    match read_varint data pos limit with
    | .error e => .error e
    | .ok (v, d, p, l) => .ok (.S32 (sint32_read_value v), d, p, l)
  | .fixed32 =>
    match read_len data pos 4 limit with
    | .error e => .error e
    | .ok (buf, d, p, l) => .ok (.UF32 (leToNat buf), d, p, l)
  | .sfixed32 =>
    match read_len data pos 4 limit with
    | .error e => .error e
    | .ok (buf, d, p, l) => .ok (.SF32 (toI32 (leToNat buf)), d, p, l)
  | .int64 =>
    match read_varint data pos limit with
    | .error e => .error e
    | .ok (v, d, p, l) => .ok (.I64 (toI64 v), d, p, l)
  | .uint64 =>
    match read_varint data pos limit with
    | .error e => .error e
    | .ok (v, d, p, l) => .ok (.U64 (v % 2 ^ 64), d, p, l)
  | .sint64 =>
    match read_varint data pos limit with
    | .error e => .error e
    | .ok (v, d, p, l) => .ok (.S64 (sint64_read_value v), d, p, l)
  | .fixed64 =>
    match read_len data pos 8 limit with
    | .error e => .error e
    | .ok (buf, d, p, l) => .ok (.UF64 (leToNat buf), d, p, l)
  | .sfixed64 =>
    match read_len data pos 8 limit with
    | .error e => .error e
    | .ok (buf, d, p, l) => .ok (.SF64 (toI64 (leToNat buf)), d, p, l)
  | .float =>
    match read_len data pos 4 limit with
    | .error e => .error e
    | .ok (buf, d, p, l) => .ok (.F32 buf, d, p, l)
  | .double =>
    match read_len data pos 8 limit with
    | .error e => .error e
    | .ok (buf, d, p, l) => .ok (.F64 buf, d, p, l)
  | .bool =>
    match read_varint data pos limit with
    | .error e => .error e
    | .ok (v, d, p, l) => .ok (.BOOL (v ≠ 0), d, p, l)
  | .str =>
    match read_len data pos field_len limit with
    | .error e => .error e
    | .ok (buf, d, p, l) =>
      if isValidUtf8 buf then .ok (.STR buf, d, p, l)
      else .ok (.STR wrong_unicode_data, d, p, l)
  | .bytes =>
    match read_len data pos field_len limit with
    | .error e => .error e
    | .ok (buf, d, p, l) => .ok (.BYTES buf, d, p, l)
  | .enum _ _ =>
    match read_varint data pos limit with
    | .error e => .error e
    | .ok (v, d, p, l) => .ok (.ENUM (toI32 v), d, p, l)
  | .message _ => .error .panicked
  | .unknownTy => .error .panicked

/-- Drop insignificant trailing zero bytes (the `while vec.last() ==
Some(&0) { vec.pop() }` loop of `read_unknown`). -/
def trimTrailingZeros (l : List Nat) : List Nat :=
  ((l.reverse).dropWhile (fun b => b = 0)).reverse

/-- `UnknownFieldDefinition::read_unknown`: a varint payload for
`length == 0` (stored as trimmed little-endian `i64` bytes), a raw
`length`-byte payload otherwise. -/
def read_unknown (data : List Nat) (pos limit : Nat) (tlv : Tag) :
    Except PbError (ScalarValue × List Nat × Nat × Nat) :=
  if tlv.length = 0 then
    match read_varint data pos limit with
    | .error e => .error e
    | .ok (v, d, p, l) =>
      .ok (.UNKNOWN tlv (trimTrailingZeros (natToLe 8 (v % 2 ^ 64))), d, p, l)
  else
    match read_len data pos tlv.length limit with
    | .error e => .error e
    | .ok (buf, d, p, l) => .ok (.UNKNOWN tlv buf, d, p, l)

/-- `UnknownFieldDefinition::write`: re-emits the tag varint, then either
the reconstructed varint payload (`i128::from_le_bytes` of the stored
bytes zero-padded to 16) or the length varint (unless the kind carries an
implicit length) and the raw payload. -/
def unknown_write (tlv : Tag) (buf : List Nat) : List Nat :=
  write_varint_i tlv.first_number ++
    (if tlv.wire_type = 0 then
      write_varint_i (toI128 (leToNat (buf.take 16)))
    else
      (if ¬tlv.auto_length then write_varint_i (tlv.length : Int) else []) ++ buf)

/-- `FieldProto::write` (payload only; `unreachable!()` on a value variant
that does not match the descriptor, modelled as `none`). -/
def FieldProto.write (f : FieldProto) (data : ScalarValue) : Option (List Nat) :=
  match f.type, data with
  | .int32, .I32 v => some (write_varint_i v)
  | .uint32, .U32 v => some (write_varint_i (v : Int))
  | .sint32, .S32 v => some (sint32_write_bytes v)
  | .fixed32, .UF32 v => some (natToLe 4 v)
  | .sfixed32, .SF32 v => some (natToLe 4 (toU32 v))
  | .int64, .I64 v => some (write_varint_i v)
  | .uint64, .U64 v => some (write_varint_i (v : Int))
  | .sint64, .S64 v => some (sint64_write_bytes v)
  | .fixed64, .UF64 v => some (natToLe 8 v)
  | .sfixed64, .SF64 v => some (natToLe 8 (toU64 v))
  | .float, .F32 bits => some bits
  | .double, .F64 bits => some bits
  | .bool, .BOOL b => some (write_varint_i (if b then 1 else 0))
  | .str, .STR s => some s
  | .bytes, .BYTES bs => some bs
  | .enum _ _, .ENUM v => some (write_varint_i v)
  | .message _, .ENUM v => some (write_varint_i v)
  | .unknownTy, .UNKNOWN tlv buf => some (unknown_write tlv buf)
  | _, _ => none

/-- `FieldProto::default`.  For a message-typed field the source returns
an empty `MessageData` with the linked descriptor; the link is resolved
through `ProtoData` here.  An unresolved name falls back to the
enum default, like the unlinked `OnceCell`. -/
def FieldProto.default (f : FieldProto) (proto : ProtoData) : FieldValue :=
  match f.type with
  | .int32 => .SCALAR (.I32 0)
  | .uint32 => .SCALAR (.U32 0)
  | .sint32 => .SCALAR (.S32 0)
  | .fixed32 => .SCALAR (.UF32 0)
  | .sfixed32 => .SCALAR (.SF32 0)
  | .int64 => .SCALAR (.I64 0)
  | .uint64 => .SCALAR (.U64 0)
  | .sint64 => .SCALAR (.S64 0)
  | .fixed64 => .SCALAR (.UF64 0)
  | .sfixed64 => .SCALAR (.SF64 0)
  | .float => .SCALAR (.F32 (natToLe 4 0))
  | .double => .SCALAR (.F64 (natToLe 8 0))
  | .bool => .SCALAR (.BOOL false)
  | .str => .SCALAR (.STR [])
  | .bytes => .SCALAR (.BYTES [])
  | .enum _ _ => .SCALAR (.ENUM 0)
  | .message n =>
    match proto.get_message_definition n with
    | some d => .MESSAGE (.mk d [])
    | none => .SCALAR (.ENUM 0)
  | .unknownTy => .SCALAR (.UNKNOWN ⟨0, 0⟩ [])

/-! Decoding (`MessageData::new`).  The recursion is bounded by an
explicit fuel; running out of fuel is the model-only error
`fuelExhausted`, and every claim quantifies over or supplies sufficient
fuel. -/

/-- Packed-field inner loop: `while *limit > 0 { read one element }`. -/
def decodePacked (fdef : FieldProto) : Nat → List Nat → Nat → Nat → Nat →
    Except PbError (List FieldData × List Nat × Nat × Nat)
  | 0, _, _, _, _ => .error .fuelExhausted
  | fuel + 1, data, pos, limit, field_len =>
    if limit = 0 then .ok ([], data, pos, limit)
    else
      match fdef.read data pos limit field_len with
      | .error e => .error e
      | .ok (sv, d1, p1, l1) =>
        match decodePacked fdef fuel d1 p1 l1 field_len with
        | .error e => .error e
        | .ok (flds, d2, p2, l2) =>
          .ok (FieldData.mk fdef pos (.SCALAR sv) :: flds, d2, p2, l2)

/-- Field loop of `MessageData::new`: consume tags while `limit > 0`.
The `*limit -= tag.length` before a sub-message recursion is the wrapping
`u32` subtraction of the source's release build. -/
def decodeFields (proto : ProtoData) : MessageProto → Nat → List Nat → Nat → Nat →
    Except PbError (List FieldData × List Nat × Nat × Nat)
  | _, 0, _, _, _ => .error .fuelExhausted
  | mdef, fuel + 1, data, pos, limit =>
    if limit = 0 then .ok ([], data, pos, limit)
    else
      match read_tag data pos limit with
      | .error e => .error e
      | .ok (tag, d1, p1, l1) =>
        match mdef.get_field tag.field_id with
        | some fdef =>
          if fdef.is_message then
            match proto.get_message_definition fdef.typename with
            | none => .error .panicked
            | some subdef =>
              match decodeFields proto subdef fuel d1 p1 tag.length with
              | .error e => .error e
              | .ok (subflds, d2, p2, _) =>
                match decodeFields proto mdef fuel d2 p2 (wsub32 l1 tag.length) with
                | .error e => .error e
                | .ok (flds, d3, p3, l3) =>
                  .ok (FieldData.mk fdef p1 (.MESSAGE (.mk subdef subflds)) :: flds,
                       d3, p3, l3)
          else if fdef.repeated = false ∨ tag.auto_length = true ∨ fdef.wire_type = 2 then
            match fdef.read d1 p1 l1 tag.length with
            | .error e => .error e
            | .ok (sv, d2, p2, l2) =>
              match decodeFields proto mdef fuel d2 p2 l2 with
              | .error e => .error e
              | .ok (flds, d3, p3, l3) =>
                .ok (FieldData.mk fdef p1 (.SCALAR sv) :: flds, d3, p3, l3)
          else
            match decodePacked fdef fuel d1 p1 l1 tag.length with
            | .error e => .error e
            | .ok (packed, d2, p2, l2) =>
              match decodeFields proto mdef fuel d2 p2 l2 with
              | .error e => .error e
              | .ok (flds, d3, p3, l3) => .ok (packed ++ flds, d3, p3, l3)
        | none =>
          match read_unknown d1 p1 l1 tag with
          | .error e => .error e
          | .ok (sv, d2, p2, l2) =>
            match decodeFields proto mdef fuel d2 p2 l2 with
            | .error e => .error e
            | .ok (flds, d3, p3, l3) =>
              .ok (FieldData.mk proto.unknown_field p1 (.SCALAR sv) :: flds, d3, p3, l3)

/-- `MessageData::new`. -/
def MessageData.new (proto : ProtoData) (mdef : MessageProto) (fuel : Nat)
    (data : List Nat) (pos limit : Nat) :
    Except PbError (MessageData × List Nat × Nat × Nat) :=
  match decodeFields proto mdef fuel data pos limit with
  | .error e => .error e
  | .ok (flds, d, p, l) => .ok (.mk mdef flds, d, p, l)

/-! Encoding (`MessageData::write`): fields in storage order; nested
messages are measured through a scratch buffer before the length varint.
A `none` result models the source's `unreachable!()` panics. -/

/-- Tag value written for a schema-declared field:
`((id << 3) | wire_type) as i128` computed in `i32`.  Because the low
three bits of `id << 3` are clear, the bitwise or equals the sum, before
and after two's-complement truncation. -/
def field_tag_value (f : FieldProto) : Int :=
  toI32 (f.id * 8 + (f.wire_type : Int))

mutual
def MessageData.write : MessageData → Option (List Nat)
  | .mk _ fields => write_fields fields

def write_fields : List FieldData → Option (List Nat)
  | [] => some []
  | fd :: rest =>
    match write_field fd, write_fields rest with
    | some a, some b => some (a ++ b)
    | _, _ => none

def write_field : FieldData → Option (List Nat)
  | .mk fdef _ (.SCALAR sv) =>
    match sv with
    | .UNKNOWN tlv buf => fdef.write (.UNKNOWN tlv buf)
    | _ =>
      if fdef.wire_type ≠ 2 then
        match fdef.write sv with
        | some payload => some (write_varint_i (field_tag_value fdef) ++ payload)
        | none => none
      else
        match fdef.write sv with
        | some buf =>
          some (write_varint_i (field_tag_value fdef) ++
            write_varint_i (buf.length : Int) ++ buf)
        | none => none
  | .mk fdef _ (.MESSAGE msg) =>
    if fdef.wire_type ≠ 2 then some (write_varint_i (field_tag_value fdef))
    else
      match msg.write with
      | some buf =>
        some (write_varint_i (field_tag_value fdef) ++
          write_varint_i (buf.length : Int) ++ buf)
      | none => none
end

/-! Canonical-encoding checker.  `checkFields` walks the byte stream in
lockstep with `decodeFields` and checks, locally, that every consumed
region re-encodes to exactly its own bytes: each varint is the canonical
encoding of its value (and small enough to survive the source's `as i32`
/ `as u32` truncations), each declared field's tag carries the declared
wire kind (which also rules the packed branch out), each scalar payload
re-encodes to the consumed payload bytes, each sub-message consumes
exactly its declared length, and each unknown field re-encodes to its
consumed bytes.  This predicate is the formal counterpart of the
amendment's proviso that the input is in the encoder's canonical form. -/

/-- Per-field canonicity rules, parameterized by the rest-checker `chk`
(instantiated by `checkFields` with itself at the step's remaining
fuel). -/
def checkTagged (proto : ProtoData) (mdef : MessageProto)
    (chk : MessageProto → List Nat → Nat → Nat → Bool) (fuel : Nat)
    (orig : List Nat) (tag : Tag) (d2 : List Nat) (p2 l2 : Nat) : Bool :=
  match mdef.get_field tag.field_id with
  | some fdef =>
    if fdef.is_message then
      match proto.get_message_definition fdef.typename with
      | none => true
      | some subdef =>
        decide (tag.wire_type = 2) &&
        (match decodeFields proto subdef fuel d2 p2 tag.length with
         | .error _ => true
         | .ok (_, d3, p3, _) =>
           chk subdef d2 p2 tag.length &&
           decide (d2.length = d3.length + tag.length) &&
           chk mdef d3 p3 (wsub32 l2 tag.length))
    else
      decide (tag.wire_type = fdef.wire_type) &&
      (match fdef.read d2 p2 l2 tag.length with
       | .error _ => true
       | .ok (sv, d3, p3, l3) =>
         (match fdef.write sv with
          | some w => decide (w ++ d3 = d2)
          | none => false) &&
         chk mdef d3 p3 l3)
  | none =>
    match read_unknown d2 p2 l2 tag with
    | .error _ => true
    | .ok (sv, d3, p3, l3) =>
      (match sv with
       | .UNKNOWN t buf => decide (unknown_write t buf ++ d3 = orig)
       | _ => false) &&
      chk mdef d3 p3 l3

def checkFields (proto : ProtoData) : MessageProto → Nat → List Nat → Nat → Nat → Bool
  | _, 0, _, _, _ => true
  | mdef, fuel + 1, data, pos, limit =>
    if limit = 0 then true
    else
      match read_varint data pos limit with
      | .error _ => true
      | .ok (v, d1, p1, l1) =>
        decide (write_varint v ++ d1 = data) && decide (v < 2 ^ 31) &&
        (if (toI32 v % 8).toNat = 0 then
           checkTagged proto mdef (fun md => checkFields proto md fuel) fuel
             data ⟨toI32 v, 0⟩ d1 p1 l1
         else if (toI32 v % 8).toNat = 5 then
           checkTagged proto mdef (fun md => checkFields proto md fuel) fuel
             data ⟨toI32 v, 4⟩ d1 p1 l1
         else if (toI32 v % 8).toNat = 1 then
           checkTagged proto mdef (fun md => checkFields proto md fuel) fuel
             data ⟨toI32 v, 8⟩ d1 p1 l1
         else if (toI32 v % 8).toNat = 2 then
           match read_varint d1 p1 l1 with
           | .error _ => true
           | .ok (lv, d2, p2, l2) =>
             decide (write_varint lv ++ d2 = d1) && decide (lv < 2 ^ 32) &&
             checkTagged proto mdef (fun md => checkFields proto md fuel) fuel
               data ⟨toI32 v, lv % 2 ^ 32⟩ d2 p2 l2
         else true)

/-! Supporting lemmas for the round-trip theorem. -/

theorem toU128_natCast {n : Nat} (h : n < 2 ^ 128) : toU128 (n : Int) = n := by
  unfold toU128
  rw [Int.emod_eq_of_lt (by positivity) (by exact_mod_cast h)]
  exact Int.toNat_natCast n

theorem write_varint_i_natCast {n : Nat} (h : n < 2 ^ 128) :
    write_varint_i (n : Int) = write_varint n := by
  unfold write_varint_i
  rw [toU128_natCast h]

theorem toI32_natCast_of_lt {v : Nat} (h : v < 2 ^ 31) : toI32 (v : Int) = (v : Int) := by
  unfold toI32
  omega

theorem field_tag_value_eq {v : Nat} {fdef : FieldProto} (hv : v < 2 ^ 31)
    (hid : fdef.id = toI32 (v : Int) / 8)
    (hwt : fdef.wire_type = (toI32 (v : Int) % 8).toNat) :
    field_tag_value fdef = (v : Int) := by
  unfold field_tag_value
  rw [hid, hwt, toI32_natCast_of_lt hv]
  unfold toI32
  omega

theorem read_len_ok {data : List Nat} {pos length limit : Nat} {buf d : List Nat} {p l : Nat}
    (h : read_len data pos length limit = .ok (buf, d, p, l)) :
    length ≤ limit ∧ length ≤ data.length ∧ buf = data.take length ∧
      d = data.drop length ∧ p = pos + length ∧ l = limit - length := by
  unfold read_len at h
  split_ifs at h with h1 h2
  simp only [Except.ok.injEq, Prod.mk.injEq] at h
  exact ⟨h1, h2, h.1.symm, h.2.1.symm, h.2.2.1.symm, h.2.2.2.symm⟩

/-- A successful scalar read never yields an `UNKNOWN` value. -/
theorem read_not_unknown {fdef : FieldProto} {data : List Nat} {pos limit flen : Nat}
    {sv : ScalarValue} {d : List Nat} {p l : Nat}
    (h : fdef.read data pos limit flen = .ok (sv, d, p, l)) :
    ∀ t b, sv ≠ .UNKNOWN t b := by
  intro t b
  rcases fdef with ⟨name, id, rep, ty⟩
  cases ty <;> simp only [FieldProto.read] at h <;> (repeat' split at h) <;>
    first
    | (simp at h
       done)
    | (simp only [Except.ok.injEq, Prod.mk.injEq] at h
       rw [← h.1]
       simp)

/-- A field with `is_message` resolves to wire type `WT_LEN`. -/
theorem is_message_wire_type {fdef : FieldProto} (h : fdef.is_message = true) :
    fdef.wire_type = 2 := by
  rcases fdef with ⟨name, id, rep, ty⟩
  unfold FieldProto.is_message at h
  unfold FieldProto.wire_type
  cases ty <;> simp_all

/-- A non-message field of wire type `WT_LEN` (a string or bytes field)
consumes exactly `flen` bytes on a successful read. -/
theorem read_len_delimited {fdef : FieldProto} {data : List Nat} {pos limit flen : Nat}
    {sv : ScalarValue} {d : List Nat} {p l : Nat}
    (hwt : fdef.wire_type = 2) (hmsg : fdef.is_message = false)
    (h : fdef.read data pos limit flen = .ok (sv, d, p, l)) :
    flen ≤ data.length ∧ d = data.drop flen := by
  rcases fdef with ⟨name, id, rep, ty⟩
  cases ty
  case str =>
    simp only [FieldProto.read] at h
    cases hrl : read_len data pos flen limit with
    | error e => rw [hrl] at h; simp at h
    | ok r =>
      rw [hrl] at h
      obtain ⟨buf, d', p', l'⟩ := r
      obtain ⟨-, h2, -, h4, -, -⟩ := read_len_ok hrl
      simp only [Except.ok.injEq, Prod.mk.injEq] at h
      split at h <;>
        · simp only [Except.ok.injEq, Prod.mk.injEq] at h
          exact ⟨h2, h.2.1 ▸ h4⟩
  case bytes =>
    simp only [FieldProto.read] at h
    cases hrl : read_len data pos flen limit with
    | error e => rw [hrl] at h; simp at h
    | ok r =>
      rw [hrl] at h
      obtain ⟨buf, d', p', l'⟩ := r
      obtain ⟨-, h2, -, h4, -, -⟩ := read_len_ok hrl
      simp only [Except.ok.injEq, Prod.mk.injEq] at h
      exact ⟨h2, h.2.1 ▸ h4⟩
  all_goals first
    | (simp [FieldProto.wire_type] at hwt
       done)
    | (simp [FieldProto.is_message] at hmsg
       done)

/-- `MessageProto::get_field` only returns a field carrying the requested
number. -/
theorem get_field_id {m : MessageProto} {n : Int} {f : FieldProto}
    (h : m.get_field n = some f) : f.id = n := by
  unfold MessageProto.get_field at h
  generalize m.fields = L at h
  induction L with
  | nil => simp at h
  | cons a l ih =>
    rw [List.find?_cons] at h
    by_cases ha : a.id = n
    · simp only [ha, decide_True, Option.some.injEq] at h
      exact h ▸ ha
    · simp only [decide_eq_false ha] at h
      exact ih h

/-- `MessageData::write` on a non-`UNKNOWN` scalar field takes the
tag-then-payload path of the source. -/
theorem write_field_scalar (fdef : FieldProto) (p : Nat) (sv : ScalarValue)
    (hnu : ∀ t b, sv ≠ .UNKNOWN t b) :
    write_field (.mk fdef p (.SCALAR sv)) =
      (if fdef.wire_type ≠ 2 then
        match fdef.write sv with
        | some payload => some (write_varint_i (field_tag_value fdef) ++ payload)
        | none => none
      else
        match fdef.write sv with
        | some buf =>
          some (write_varint_i (field_tag_value fdef) ++
            write_varint_i (buf.length : Int) ++ buf)
        | none => none) := by
  cases sv
  case UNKNOWN t b => exact absurd rfl (hnu t b)
  all_goals simp only [write_field]

/-- What `checkTagged` guarantees about a successfully read declared
scalar field. -/
theorem checkTagged_scalar {proto : ProtoData} {mdef : MessageProto}
    {chk : MessageProto → List Nat → Nat → Nat → Bool} {fuel : Nat}
    {orig : List Nat} {tag : Tag} {d2 : List Nat} {p2 l2 : Nat} {fdef : FieldProto}
    {sv : ScalarValue} {d3 : List Nat} {p3 l3 : Nat}
    (hgf : mdef.get_field tag.field_id = some fdef)
    (hmsg : fdef.is_message = false)
    (hread : fdef.read d2 p2 l2 tag.length = .ok (sv, d3, p3, l3))
    (hchk : checkTagged proto mdef chk fuel orig tag d2 p2 l2 = true) :
    tag.wire_type = fdef.wire_type ∧
      (∃ w, fdef.write sv = some w ∧ w ++ d3 = d2) ∧
      chk mdef d3 p3 l3 = true := by
  simp only [checkTagged, hgf] at hchk
  rw [hread] at hchk
  simp only [hmsg, Bool.false_eq_true, if_false, Bool.and_eq_true,
    decide_eq_true_eq] at hchk
  obtain ⟨hwt, hrest⟩ := hchk
  refine ⟨hwt, ?_, ?_⟩
  · cases hw : fdef.write sv with
    | none => rw [hw] at hrest; simp at hrest
    | some w =>
      rw [hw] at hrest
      simp only [decide_eq_true_eq] at hrest
      exact ⟨w, rfl, hrest.1⟩
  · cases hw : fdef.write sv with
    | none => rw [hw] at hrest; simp at hrest
    | some w => rw [hw] at hrest; exact hrest.2

/-- What `checkTagged` guarantees about a declared sub-message field whose
body decodes. -/
theorem checkTagged_message {proto : ProtoData} {mdef : MessageProto}
    {chk : MessageProto → List Nat → Nat → Nat → Bool} {fuel : Nat}
    {orig : List Nat} {tag : Tag} {d2 : List Nat} {p2 l2 : Nat} {fdef : FieldProto}
    {subdef : MessageProto} {subflds : List FieldData} {d3 : List Nat} {p3 l3 : Nat}
    (hgf : mdef.get_field tag.field_id = some fdef)
    (hmsg : fdef.is_message = true)
    (hgm : proto.get_message_definition fdef.typename = some subdef)
    (hsub : decodeFields proto subdef fuel d2 p2 tag.length = .ok (subflds, d3, p3, l3))
    (hchk : checkTagged proto mdef chk fuel orig tag d2 p2 l2 = true) :
    tag.wire_type = 2 ∧
      chk subdef d2 p2 tag.length = true ∧
      d2.length = d3.length + tag.length ∧
      chk mdef d3 p3 (wsub32 l2 tag.length) = true := by
  simp only [checkTagged, hgf] at hchk
  simp only [hmsg, if_true, hgm] at hchk
  rw [hsub] at hchk
  simp only [Bool.and_eq_true, decide_eq_true_eq] at hchk
  exact ⟨hchk.1, hchk.2.1.1, hchk.2.1.2, hchk.2.2⟩

/-- What `checkTagged` guarantees about a successfully read unknown
field. -/
theorem checkTagged_unknown {proto : ProtoData} {mdef : MessageProto}
    {chk : MessageProto → List Nat → Nat → Nat → Bool} {fuel : Nat}
    {orig : List Nat} {tag : Tag} {d2 : List Nat} {p2 l2 : Nat}
    {sv : ScalarValue} {d3 : List Nat} {p3 l3 : Nat}
    (hgf : mdef.get_field tag.field_id = none)
    (hru : read_unknown d2 p2 l2 tag = .ok (sv, d3, p3, l3))
    (hchk : checkTagged proto mdef chk fuel orig tag d2 p2 l2 = true) :
    (∃ t buf, sv = .UNKNOWN t buf ∧ unknown_write t buf ++ d3 = orig) ∧
      chk mdef d3 p3 l3 = true := by
  simp only [checkTagged, hgf] at hchk
  rw [hru] at hchk
  simp only [Bool.and_eq_true] at hchk
  obtain ⟨hw, hrest⟩ := hchk
  refine ⟨?_, hrest⟩
  cases sv
  case UNKNOWN t buf =>
    simp only [decide_eq_true_eq] at hw
    exact ⟨t, buf, rfl, hw⟩
  all_goals simp at hw

/-- One step of `checkFields`: the canonicity rules extracted for a
successfully read tag varint. -/
theorem checkFields_step {proto : ProtoData} {mdef : MessageProto} {fuel : Nat}
    {data : List Nat} {pos limit : Nat} {v : Nat} {d1 : List Nat} {p1 l1 : Nat}
    (hl : limit ≠ 0)
    (hv : read_varint data pos limit = .ok (v, d1, p1, l1))
    (hchk : checkFields proto mdef (fuel + 1) data pos limit = true) :
    write_varint v ++ d1 = data ∧ v < 2 ^ 31 ∧
      ((toI32 (v : Int) % 8).toNat = 0 →
        checkTagged proto mdef (fun md => checkFields proto md fuel) fuel
          data ⟨toI32 (v : Int), 0⟩ d1 p1 l1 = true) ∧
      ((toI32 (v : Int) % 8).toNat = 5 →
        checkTagged proto mdef (fun md => checkFields proto md fuel) fuel
          data ⟨toI32 (v : Int), 4⟩ d1 p1 l1 = true) ∧
      ((toI32 (v : Int) % 8).toNat = 1 →
        checkTagged proto mdef (fun md => checkFields proto md fuel) fuel
          data ⟨toI32 (v : Int), 8⟩ d1 p1 l1 = true) ∧
      ((toI32 (v : Int) % 8).toNat = 2 →
        ∀ lv d2 p2 l2, read_varint d1 p1 l1 = .ok (lv, d2, p2, l2) →
          write_varint lv ++ d2 = d1 ∧ lv < 2 ^ 32 ∧
            checkTagged proto mdef (fun md => checkFields proto md fuel) fuel
              data ⟨toI32 (v : Int), lv % 2 ^ 32⟩ d2 p2 l2 = true) := by
  simp only [checkFields] at hchk
  rw [if_neg hl, hv] at hchk
  simp only [Bool.and_eq_true, decide_eq_true_eq] at hchk
  obtain ⟨⟨ht, h31⟩, hif⟩ := hchk
  refine ⟨ht, h31, ?_, ?_, ?_, ?_⟩
  · intro hk
    rw [if_pos hk] at hif
    exact hif
  · intro hk
    rw [if_neg (by omega), if_pos hk] at hif
    exact hif
  · intro hk
    rw [if_neg (by omega), if_neg (by omega), if_pos hk] at hif
    exact hif
  · intro hk lv d2 p2 l2 hv2
    rw [if_neg (by omega)] at hif
    rw [if_neg (by omega), if_neg (by omega), if_pos hk, hv2] at hif
    simp only [Bool.and_eq_true, decide_eq_true_eq] at hif
    exact ⟨hif.1.1, hif.1.2, hif.2⟩

/-- The round-trip property at a given fuel: every decode accepted by the
canonicity checker re-encodes to exactly the bytes it consumed. -/
def RoundTrip (fuel : Nat) : Prop :=
  ∀ (proto : ProtoData) (mdef : MessageProto) (data : List Nat) (pos limit : Nat)
    (flds : List FieldData) (dr : List Nat) (pr lr : Nat),
    proto.unknown_field.type = .unknownTy →
    decodeFields proto mdef fuel data pos limit = .ok (flds, dr, pr, lr) →
    checkFields proto mdef fuel data pos limit = true →
    ∃ w, write_fields flds = some w ∧ w ++ dr = data

/-- An unknown field accepted by the checker re-encodes to its consumed
bytes (tag included), and the remainder follows by induction. -/
theorem unknown_branch {proto : ProtoData} {mdef : MessageProto} {fuel : Nat}
    (ih : RoundTrip fuel) (hu : proto.unknown_field.type = .unknownTy)
    {tag : Tag} {data d1 : List Nat} {p1 l1 : Nat} {sv : ScalarValue}
    {d2 : List Nat} {p2 l2 : Nat} {flds2 : List FieldData} {dr : List Nat} {pr lr : Nat}
    (hgf : mdef.get_field tag.field_id = none)
    (hru : read_unknown d1 p1 l1 tag = .ok (sv, d2, p2, l2))
    (hrest : decodeFields proto mdef fuel d2 p2 l2 = .ok (flds2, dr, pr, lr))
    (hct : checkTagged proto mdef (fun md => checkFields proto md fuel) fuel
      data tag d1 p1 l1 = true) :
    ∃ w, write_fields (FieldData.mk proto.unknown_field p1 (.SCALAR sv) :: flds2) = some w ∧
      w ++ dr = data := by
  obtain ⟨⟨t, buf, hsv, hwb⟩, hrchk⟩ := checkTagged_unknown hgf hru hct
  obtain ⟨wr, hwr, hcat⟩ := ih proto mdef d2 p2 l2 flds2 dr pr lr hu hrest hrchk
  subst hsv
  have hwf : write_field (.mk proto.unknown_field p1 (.SCALAR (.UNKNOWN t buf))) =
      some (unknown_write t buf) := by
    simp only [write_field, FieldProto.write, hu]
  refine ⟨unknown_write t buf ++ wr, ?_, ?_⟩
  · simp only [write_fields, hwf, hwr]
  · rw [List.append_assoc, hcat, hwb]

/-- A declared scalar field of a non-length-delimited wire kind accepted
by the checker re-encodes to tag-then-payload, reproducing its bytes. -/
theorem scalar_auto_branch {proto : ProtoData} {mdef : MessageProto} {fuel : Nat}
    (ih : RoundTrip fuel) (hu : proto.unknown_field.type = .unknownTy)
    {tag : Tag} {v : Nat} (hv31 : v < 2 ^ 31)
    (hfn : tag.first_number = toI32 (v : Int))
    {data d1 : List Nat} {p1 l1 : Nat} {fdef : FieldProto} {sv : ScalarValue}
    {d2 : List Nat} {p2 l2 : Nat} {flds2 : List FieldData} {dr : List Nat} {pr lr : Nat}
    (hgf : mdef.get_field tag.field_id = some fdef)
    (hmsg : fdef.is_message = false)
    (hw2 : fdef.wire_type ≠ 2)
    (hread : fdef.read d1 p1 l1 tag.length = .ok (sv, d2, p2, l2))
    (hrest : decodeFields proto mdef fuel d2 p2 l2 = .ok (flds2, dr, pr, lr))
    (htag : write_varint v ++ d1 = data)
    (hct : checkTagged proto mdef (fun md => checkFields proto md fuel) fuel
      data tag d1 p1 l1 = true) :
    ∃ w, write_fields (FieldData.mk fdef p1 (.SCALAR sv) :: flds2) = some w ∧
      w ++ dr = data := by
  obtain ⟨hwt, ⟨wp, hwp, hwpd⟩, hrchk⟩ := checkTagged_scalar hgf hmsg hread hct
  obtain ⟨wr, hwr, hcat⟩ := ih proto mdef d2 p2 l2 flds2 dr pr lr hu hrest hrchk
  have hnu := read_not_unknown hread
  have hid : fdef.id = toI32 (v : Int) / 8 := by
    have h := get_field_id hgf
    rw [Tag.field_id, hfn] at h
    exact h
  have hwt2 : fdef.wire_type = (toI32 (v : Int) % 8).toNat := by
    rw [← hwt, Tag.wire_type, hfn]
  have hft : field_tag_value fdef = (v : Int) := field_tag_value_eq hv31 hid hwt2
  have hwf : write_field (.mk fdef p1 (.SCALAR sv)) = some (write_varint v ++ wp) := by
    rw [write_field_scalar fdef p1 sv hnu, if_pos hw2]
    simp only [hwp]
    rw [hft, write_varint_i_natCast (by omega)]
  refine ⟨write_varint v ++ wp ++ wr, ?_, ?_⟩
  · simp only [write_fields, hwf, hwr]
  · simp only [List.append_assoc, hcat, hwpd, htag]

/-- A declared string or bytes field accepted by the checker re-encodes to
tag, length varint and payload, reproducing its bytes. -/
theorem scalar_len_branch {proto : ProtoData} {mdef : MessageProto} {fuel : Nat}
    (ih : RoundTrip fuel) (hu : proto.unknown_field.type = .unknownTy)
    {tag : Tag} {v : Nat} (hv31 : v < 2 ^ 31)
    (hfn : tag.first_number = toI32 (v : Int))
    (htw2 : tag.wire_type = 2) (h32 : tag.length < 2 ^ 32)
    {data dl d1 : List Nat} {p1 l1 : Nat} {fdef : FieldProto} {sv : ScalarValue}
    {d2 : List Nat} {p2 l2 : Nat} {flds2 : List FieldData} {dr : List Nat} {pr lr : Nat}
    (hgf : mdef.get_field tag.field_id = some fdef)
    (hmsg : fdef.is_message = false)
    (hread : fdef.read d1 p1 l1 tag.length = .ok (sv, d2, p2, l2))
    (hrest : decodeFields proto mdef fuel d2 p2 l2 = .ok (flds2, dr, pr, lr))
    (htag : write_varint v ++ dl = data)
    (hlen : write_varint tag.length ++ d1 = dl)
    (hct : checkTagged proto mdef (fun md => checkFields proto md fuel) fuel
      data tag d1 p1 l1 = true) :
    ∃ w, write_fields (FieldData.mk fdef p1 (.SCALAR sv) :: flds2) = some w ∧
      w ++ dr = data := by
  obtain ⟨hwt, ⟨wp, hwp, hwpd⟩, hrchk⟩ := checkTagged_scalar hgf hmsg hread hct
  obtain ⟨wr, hwr, hcat⟩ := ih proto mdef d2 p2 l2 flds2 dr pr lr hu hrest hrchk
  have hnu := read_not_unknown hread
  have hw2 : fdef.wire_type = 2 := by rw [← hwt, htw2]
  have hid : fdef.id = toI32 (v : Int) / 8 := by
    have h := get_field_id hgf
    rw [Tag.field_id, hfn] at h
    exact h
  have hwt2 : fdef.wire_type = (toI32 (v : Int) % 8).toNat := by
    rw [← hwt, Tag.wire_type, hfn]
  have hft : field_tag_value fdef = (v : Int) := field_tag_value_eq hv31 hid hwt2
  have hlenwp : wp.length = tag.length := by
    obtain ⟨hle, hdrop⟩ := read_len_delimited hw2 hmsg hread
    have h := congrArg List.length hwpd
    rw [List.length_append, hdrop, List.length_drop] at h
    omega
  have hwf : write_field (.mk fdef p1 (.SCALAR sv)) =
      some (write_varint v ++ write_varint tag.length ++ wp) := by
    rw [write_field_scalar fdef p1 sv hnu, if_neg (by simp [hw2])]
    simp only [hwp]
    rw [hft, write_varint_i_natCast (by omega), hlenwp,
      write_varint_i_natCast (show tag.length < 2 ^ 128 by omega)]
  refine ⟨write_varint v ++ write_varint tag.length ++ wp ++ wr, ?_, ?_⟩
  · simp only [write_fields, hwf, hwr]
  · simp only [List.append_assoc, hcat, hwpd, hlen, htag]

/-- A declared sub-message field accepted by the checker re-encodes to
tag, length varint and body, reproducing its bytes. -/
theorem message_branch {proto : ProtoData} {mdef : MessageProto} {fuel : Nat}
    (ih : RoundTrip fuel) (hu : proto.unknown_field.type = .unknownTy)
    {tag : Tag} {v : Nat} (hv31 : v < 2 ^ 31)
    (hfn : tag.first_number = toI32 (v : Int)) (h32 : tag.length < 2 ^ 32)
    {data dl d1 : List Nat} {p1 l1 : Nat} {fdef : FieldProto} {subdef : MessageProto}
    {subflds : List FieldData} {d2 : List Nat} {p2 l2x : Nat}
    {flds2 : List FieldData} {dr : List Nat} {pr lr : Nat}
    (hgf : mdef.get_field tag.field_id = some fdef)
    (hmsg : fdef.is_message = true)
    (hgm : proto.get_message_definition fdef.typename = some subdef)
    (hsub : decodeFields proto subdef fuel d1 p1 tag.length = .ok (subflds, d2, p2, l2x))
    (hrest : decodeFields proto mdef fuel d2 p2 (wsub32 l1 tag.length) =
      .ok (flds2, dr, pr, lr))
    (htag : write_varint v ++ dl = data)
    (hlen : write_varint tag.length ++ d1 = dl)
    (hct : checkTagged proto mdef (fun md => checkFields proto md fuel) fuel
      data tag d1 p1 l1 = true) :
    ∃ w, write_fields (FieldData.mk fdef p1 (.MESSAGE (.mk subdef subflds)) :: flds2) =
      some w ∧ w ++ dr = data := by
  obtain ⟨htw2, hsubchk, hacc, hrchk⟩ := checkTagged_message hgf hmsg hgm hsub hct
  obtain ⟨wsub, hwsub, hsubcat⟩ :=
    ih proto subdef d1 p1 tag.length subflds d2 p2 l2x hu hsub hsubchk
  obtain ⟨wr, hwr, hcat⟩ :=
    ih proto mdef d2 p2 (wsub32 l1 tag.length) flds2 dr pr lr hu hrest hrchk
  have hsublen : wsub.length = tag.length := by
    have h := congrArg List.length hsubcat
    rw [List.length_append] at h
    omega
  have hw2 : fdef.wire_type = 2 := is_message_wire_type hmsg
  have hid : fdef.id = toI32 (v : Int) / 8 := by
    have h := get_field_id hgf
    rw [Tag.field_id, hfn] at h
    exact h
  have hwt2 : fdef.wire_type = (toI32 (v : Int) % 8).toNat := by
    rw [hw2, ← htw2, Tag.wire_type, hfn]
  have hft : field_tag_value fdef = (v : Int) := field_tag_value_eq hv31 hid hwt2
  have hwf : write_field (.mk fdef p1 (.MESSAGE (.mk subdef subflds))) =
      some (write_varint v ++ write_varint tag.length ++ wsub) := by
    simp only [write_field]
    rw [if_neg (by simp [hw2])]
    simp only [MessageData.write, hwsub]
    rw [hft, write_varint_i_natCast (by omega), hsublen,
      write_varint_i_natCast (show tag.length < 2 ^ 128 by omega)]
  refine ⟨write_varint v ++ write_varint tag.length ++ wsub ++ wr, ?_, ?_⟩
  · simp only [write_fields, hwf, hwr]
  · simp only [List.append_assoc, hcat, hsubcat, hlen, htag]


/-- The first conjunct of a `checkTagged` success on a declared
non-message field: the tag carries the declared wire kind. -/
theorem checkTagged_wire {proto : ProtoData} {mdef : MessageProto}
    {chk : MessageProto → List Nat → Nat → Nat → Bool} {fuel : Nat}
    {orig : List Nat} {tag : Tag} {d2 : List Nat} {p2 l2 : Nat} {fdef : FieldProto}
    (hgf : mdef.get_field tag.field_id = some fdef)
    (hmsg : fdef.is_message = false)
    (hchk : checkTagged proto mdef chk fuel orig tag d2 p2 l2 = true) :
    tag.wire_type = fdef.wire_type := by
  simp only [checkTagged, hgf] at hchk
  simp only [hmsg, Bool.false_eq_true, if_false, Bool.and_eq_true, decide_eq_true_eq] at hchk
  exact hchk.1

/-- Characterization of a successful `read_tag`: the tag varint, the
resulting `Tag` value per wire kind, and for `WT_LEN` the length
varint. -/
theorem read_tag_spec {data : List Nat} {pos limit : Nat} {tag : Tag}
    {d1 : List Nat} {p1 l1 : Nat}
    (h : read_tag data pos limit = .ok (tag, d1, p1, l1)) :
    ∃ v da pa la, read_varint data pos limit = .ok (v, da, pa, la) ∧
      (tag = ⟨toI32 (v : Int), 0⟩ ∧ (toI32 (v : Int) % 8).toNat = 0 ∧
         d1 = da ∧ p1 = pa ∧ l1 = la ∨
       tag = ⟨toI32 (v : Int), 4⟩ ∧ (toI32 (v : Int) % 8).toNat = 5 ∧
         d1 = da ∧ p1 = pa ∧ l1 = la ∨
       tag = ⟨toI32 (v : Int), 8⟩ ∧ (toI32 (v : Int) % 8).toNat = 1 ∧
         d1 = da ∧ p1 = pa ∧ l1 = la ∨
       (toI32 (v : Int) % 8).toNat = 2 ∧ ∃ lv,
         read_varint da pa la = .ok (lv, d1, p1, l1) ∧
         tag = ⟨toI32 (v : Int), lv % 2 ^ 32⟩) := by
  unfold read_tag at h
  cases hv : read_varint data pos limit with
  | error e => rw [hv] at h; simp at h
  | ok q =>
    obtain ⟨v, da, pa, la⟩ := q
    rw [hv] at h
    simp only [] at h
    refine ⟨v, da, pa, la, rfl, ?_⟩
    by_cases h0 : (toI32 (v : Int) % 8).toNat = 0
    · rw [if_pos h0] at h
      simp only [Except.ok.injEq, Prod.mk.injEq] at h
      exact Or.inl ⟨h.1.symm, h0, h.2.1.symm, h.2.2.1.symm, h.2.2.2.symm⟩
    · by_cases h5 : (toI32 (v : Int) % 8).toNat = 5
      · rw [if_neg h0, if_pos h5] at h
        simp only [Except.ok.injEq, Prod.mk.injEq] at h
        exact Or.inr (Or.inl ⟨h.1.symm, h5, h.2.1.symm, h.2.2.1.symm, h.2.2.2.symm⟩)
      · by_cases h1 : (toI32 (v : Int) % 8).toNat = 1
        · rw [if_neg h0, if_neg h5, if_pos h1] at h
          simp only [Except.ok.injEq, Prod.mk.injEq] at h
          exact Or.inr (Or.inr (Or.inl
            ⟨h.1.symm, h1, h.2.1.symm, h.2.2.1.symm, h.2.2.2.symm⟩))
        · by_cases h2 : (toI32 (v : Int) % 8).toNat = 2
          · rw [if_neg h0, if_neg h5, if_neg h1, if_pos h2] at h
            cases hv2 : read_varint da pa la with
            | error e => rw [hv2] at h; simp at h
            | ok q2 =>
              obtain ⟨lv, d2, p2, l2⟩ := q2
              rw [hv2] at h
              simp only [Except.ok.injEq, Prod.mk.injEq] at h
              obtain ⟨hte, hd, hp, hl⟩ := h
              exact Or.inr (Or.inr (Or.inr ⟨h2, lv, by rw [hd, hp, hl], hte.symm⟩))
          · rw [if_neg h0, if_neg h5, if_neg h1, if_neg h2] at h
            split at h <;> simp at h

theorem decodeFields_reencode : ∀ fuel : Nat, RoundTrip fuel := by
  intro fuel
  induction fuel with
  | zero =>
    intro proto mdef data pos limit flds dr pr lr hu hdec hchk
    simp [decodeFields] at hdec
  | succ fuel ih =>
    intro proto mdef data pos limit flds dr pr lr hu hdec hchk
    by_cases hl : limit = 0
    · simp only [decodeFields, if_pos hl, Except.ok.injEq, Prod.mk.injEq] at hdec
      obtain ⟨hf, hd, -, -⟩ := hdec
      subst hf
      subst hd
      exact ⟨[], rfl, by simp⟩
    · simp only [decodeFields, if_neg hl] at hdec
      cases htg : read_tag data pos limit with
      | error e => rw [htg] at hdec; simp at hdec
      | ok q =>
        obtain ⟨tag, d1, p1, l1⟩ := q
        rw [htg] at hdec
        obtain ⟨v, da, pa, la, hv, hcases⟩ := read_tag_spec htg
        obtain ⟨htag, hv31, hk0, hk5, hk1, hk2⟩ := checkFields_step hl hv hchk
        rcases hcases with ⟨hte, h0, hd, hp, hl2⟩ | ⟨hte, h5, hd, hp, hl2⟩ |
          ⟨hte, h1x, hd, hp, hl2⟩ | ⟨h2k, lv, hv2, hte⟩
        · -- WT_VARINT
          subst hte
          rw [hd, hp, hl2] at hdec
          simp only [] at hdec
          cases hgf : mdef.get_field (Tag.field_id ⟨toI32 (v : Int), 0⟩) with
          | none =>
            simp only [hgf] at hdec
            cases hru : read_unknown da pa la ⟨toI32 (v : Int), 0⟩ with
            | error e => rw [hru] at hdec; simp at hdec
            | ok q3 =>
              obtain ⟨sv, d2, p2, l2⟩ := q3
              simp only [hru] at hdec
              cases hrest : decodeFields proto mdef fuel d2 p2 l2 with
              | error e => rw [hrest] at hdec; simp at hdec
              | ok q4 =>
                obtain ⟨flds2, d3, p3, l3⟩ := q4
                simp only [hrest, Except.ok.injEq, Prod.mk.injEq] at hdec
                obtain ⟨hfl, hdr, -, -⟩ := hdec
                subst hfl hdr
                exact unknown_branch ih hu hgf hru hrest (hk0 h0)
          | some fdef =>
            simp only [hgf] at hdec
            by_cases him : fdef.is_message = true
            · simp only [him, if_true] at hdec
              cases hgm : proto.get_message_definition fdef.typename with
              | none => rw [hgm] at hdec; simp at hdec
              | some subdef =>
                simp only [hgm] at hdec
                cases hsub : decodeFields proto subdef fuel da pa 0 with
                | error e => rw [hsub] at hdec; simp at hdec
                | ok q5 =>
                  obtain ⟨subflds, d2, p2, l2x⟩ := q5
                  have hmw : (toI32 (v : Int) % 8).toNat = 2 :=
                    (checkTagged_message hgf him hgm hsub (hk0 h0)).1
                  omega
            · simp only [Bool.not_eq_true] at him
              simp only [him, Bool.false_eq_true, if_false] at hdec
              have hal : Tag.auto_length ⟨toI32 (v : Int), 0⟩ = true := by
                simp [Tag.auto_length, Tag.wire_type, h0]
              rw [if_pos (Or.inr (Or.inl hal))] at hdec
              cases hrd : fdef.read da pa la 0 with
              | error e => rw [hrd] at hdec; simp at hdec
              | ok q3 =>
                obtain ⟨sv, d2, p2, l2⟩ := q3
                simp only [hrd] at hdec
                cases hrest : decodeFields proto mdef fuel d2 p2 l2 with
                | error e => rw [hrest] at hdec; simp at hdec
                | ok q4 =>
                  obtain ⟨flds2, d3, p3, l3⟩ := q4
                  simp only [hrest, Except.ok.injEq, Prod.mk.injEq] at hdec
                  obtain ⟨hfl, hdr, -, -⟩ := hdec
                  subst hfl hdr
                  have hwt0 := checkTagged_wire hgf him (hk0 h0)
                  have hwt2 : (toI32 (v : Int) % 8).toNat = fdef.wire_type := hwt0
                  exact scalar_auto_branch ih hu hv31
                    (rfl : (⟨toI32 (v : Int), 0⟩ : Tag).first_number = toI32 (v : Int))
                    hgf him (by omega) hrd hrest htag (hk0 h0)
        · -- WT_I32
          subst hte
          rw [hd, hp, hl2] at hdec
          simp only [] at hdec
          cases hgf : mdef.get_field (Tag.field_id ⟨toI32 (v : Int), 4⟩) with
          | none =>
            simp only [hgf] at hdec
            cases hru : read_unknown da pa la ⟨toI32 (v : Int), 4⟩ with
            | error e => rw [hru] at hdec; simp at hdec
            | ok q3 =>
              obtain ⟨sv, d2, p2, l2⟩ := q3
              simp only [hru] at hdec
              cases hrest : decodeFields proto mdef fuel d2 p2 l2 with
              | error e => rw [hrest] at hdec; simp at hdec
              | ok q4 =>
                obtain ⟨flds2, d3, p3, l3⟩ := q4
                simp only [hrest, Except.ok.injEq, Prod.mk.injEq] at hdec
                obtain ⟨hfl, hdr, -, -⟩ := hdec
                subst hfl hdr
                exact unknown_branch ih hu hgf hru hrest (hk5 h5)
          | some fdef =>
            simp only [hgf] at hdec
            by_cases him : fdef.is_message = true
            · simp only [him, if_true] at hdec
              cases hgm : proto.get_message_definition fdef.typename with
              | none => rw [hgm] at hdec; simp at hdec
              | some subdef =>
                simp only [hgm] at hdec
                cases hsub : decodeFields proto subdef fuel da pa 4 with
                | error e => rw [hsub] at hdec; simp at hdec
                | ok q5 =>
                  obtain ⟨subflds, d2, p2, l2x⟩ := q5
                  have hmw : (toI32 (v : Int) % 8).toNat = 2 :=
                    (checkTagged_message hgf him hgm hsub (hk5 h5)).1
                  omega
            · simp only [Bool.not_eq_true] at him
              simp only [him, Bool.false_eq_true, if_false] at hdec
              have hal : Tag.auto_length ⟨toI32 (v : Int), 4⟩ = true := by
                simp [Tag.auto_length, Tag.wire_type, h5]
              rw [if_pos (Or.inr (Or.inl hal))] at hdec
              cases hrd : fdef.read da pa la 4 with
              | error e => rw [hrd] at hdec; simp at hdec
              | ok q3 =>
                obtain ⟨sv, d2, p2, l2⟩ := q3
                simp only [hrd] at hdec
                cases hrest : decodeFields proto mdef fuel d2 p2 l2 with
                | error e => rw [hrest] at hdec; simp at hdec
                | ok q4 =>
                  obtain ⟨flds2, d3, p3, l3⟩ := q4
                  simp only [hrest, Except.ok.injEq, Prod.mk.injEq] at hdec
                  obtain ⟨hfl, hdr, -, -⟩ := hdec
                  subst hfl hdr
                  have hwt0 := checkTagged_wire hgf him (hk5 h5)
                  have hwt2 : (toI32 (v : Int) % 8).toNat = fdef.wire_type := hwt0
                  exact scalar_auto_branch ih hu hv31
                    (rfl : (⟨toI32 (v : Int), 4⟩ : Tag).first_number = toI32 (v : Int))
                    hgf him (by omega) hrd hrest htag (hk5 h5)
        · -- WT_I64
          subst hte
          rw [hd, hp, hl2] at hdec
          simp only [] at hdec
          cases hgf : mdef.get_field (Tag.field_id ⟨toI32 (v : Int), 8⟩) with
          | none =>
            simp only [hgf] at hdec
            cases hru : read_unknown da pa la ⟨toI32 (v : Int), 8⟩ with
            | error e => rw [hru] at hdec; simp at hdec
            | ok q3 =>
              obtain ⟨sv, d2, p2, l2⟩ := q3
              simp only [hru] at hdec
              cases hrest : decodeFields proto mdef fuel d2 p2 l2 with
              | error e => rw [hrest] at hdec; simp at hdec
              | ok q4 =>
                obtain ⟨flds2, d3, p3, l3⟩ := q4
                simp only [hrest, Except.ok.injEq, Prod.mk.injEq] at hdec
                obtain ⟨hfl, hdr, -, -⟩ := hdec
                subst hfl hdr
                exact unknown_branch ih hu hgf hru hrest (hk1 h1x)
          | some fdef =>
            simp only [hgf] at hdec
            by_cases him : fdef.is_message = true
            · simp only [him, if_true] at hdec
              cases hgm : proto.get_message_definition fdef.typename with
              | none => rw [hgm] at hdec; simp at hdec
              | some subdef =>
                simp only [hgm] at hdec
                cases hsub : decodeFields proto subdef fuel da pa 8 with
                | error e => rw [hsub] at hdec; simp at hdec
                | ok q5 =>
                  obtain ⟨subflds, d2, p2, l2x⟩ := q5
                  have hmw : (toI32 (v : Int) % 8).toNat = 2 :=
                    (checkTagged_message hgf him hgm hsub (hk1 h1x)).1
                  omega
            · simp only [Bool.not_eq_true] at him
              simp only [him, Bool.false_eq_true, if_false] at hdec
              have hal : Tag.auto_length ⟨toI32 (v : Int), 8⟩ = true := by
                simp [Tag.auto_length, Tag.wire_type, h1x]
              rw [if_pos (Or.inr (Or.inl hal))] at hdec
              cases hrd : fdef.read da pa la 8 with
              | error e => rw [hrd] at hdec; simp at hdec
              | ok q3 =>
                obtain ⟨sv, d2, p2, l2⟩ := q3
                simp only [hrd] at hdec
                cases hrest : decodeFields proto mdef fuel d2 p2 l2 with
                | error e => rw [hrest] at hdec; simp at hdec
                | ok q4 =>
                  obtain ⟨flds2, d3, p3, l3⟩ := q4
                  simp only [hrest, Except.ok.injEq, Prod.mk.injEq] at hdec
                  obtain ⟨hfl, hdr, -, -⟩ := hdec
                  subst hfl hdr
                  have hwt0 := checkTagged_wire hgf him (hk1 h1x)
                  have hwt2 : (toI32 (v : Int) % 8).toNat = fdef.wire_type := hwt0
                  exact scalar_auto_branch ih hu hv31
                    (rfl : (⟨toI32 (v : Int), 8⟩ : Tag).first_number = toI32 (v : Int))
                    hgf him (by omega) hrd hrest htag (hk1 h1x)
        · -- WT_LEN
          subst hte
          obtain ⟨hlen, hlv32, hct⟩ := hk2 h2k lv d1 p1 l1 hv2
          simp only [] at hdec
          have hlv : lv % 2 ^ 32 = lv := Nat.mod_eq_of_lt hlv32
          rw [hlv] at hdec hct
          cases hgf : mdef.get_field (Tag.field_id ⟨toI32 (v : Int), lv⟩) with
          | none =>
            simp only [hgf] at hdec
            cases hru : read_unknown d1 p1 l1 ⟨toI32 (v : Int), lv⟩ with
            | error e => rw [hru] at hdec; simp at hdec
            | ok q3 =>
              obtain ⟨sv, d2, p2, l2⟩ := q3
              simp only [hru] at hdec
              cases hrest : decodeFields proto mdef fuel d2 p2 l2 with
              | error e => rw [hrest] at hdec; simp at hdec
              | ok q4 =>
                obtain ⟨flds2, d3, p3, l3⟩ := q4
                simp only [hrest, Except.ok.injEq, Prod.mk.injEq] at hdec
                obtain ⟨hfl, hdr, -, -⟩ := hdec
                subst hfl hdr
                exact unknown_branch ih hu hgf hru hrest hct
          | some fdef =>
            simp only [hgf] at hdec
            by_cases him : fdef.is_message = true
            · simp only [him, if_true] at hdec
              cases hgm : proto.get_message_definition fdef.typename with
              | none => rw [hgm] at hdec; simp at hdec
              | some subdef =>
                simp only [hgm] at hdec
                cases hsub : decodeFields proto subdef fuel d1 p1 lv with
                | error e => rw [hsub] at hdec; simp at hdec
                | ok q5 =>
                  obtain ⟨subflds, d2, p2, l2x⟩ := q5
                  simp only [hsub] at hdec
                  cases hrest : decodeFields proto mdef fuel d2 p2 (wsub32 l1 lv) with
                  | error e => rw [hrest] at hdec; simp at hdec
                  | ok q6 =>
                    obtain ⟨flds2, d3, p3, l3⟩ := q6
                    simp only [hrest, Except.ok.injEq, Prod.mk.injEq] at hdec
                    obtain ⟨hfl, hdr, -, -⟩ := hdec
                    subst hfl hdr
                    exact message_branch ih hu hv31
                      (rfl : (⟨toI32 (v : Int), lv⟩ : Tag).first_number = toI32 (v : Int))
                      hlv32 hgf him hgm hsub hrest htag hlen hct
            · simp only [Bool.not_eq_true] at him
              simp only [him, Bool.false_eq_true, if_false] at hdec
              by_cases hbr : fdef.repeated = false ∨
                  Tag.auto_length ⟨toI32 (v : Int), lv⟩ = true ∨ fdef.wire_type = 2
              · rw [if_pos hbr] at hdec
                cases hrd : fdef.read d1 p1 l1 lv with
                | error e => rw [hrd] at hdec; simp at hdec
                | ok q3 =>
                  obtain ⟨sv, d2, p2, l2⟩ := q3
                  simp only [hrd] at hdec
                  cases hrest : decodeFields proto mdef fuel d2 p2 l2 with
                  | error e => rw [hrest] at hdec; simp at hdec
                  | ok q4 =>
                    obtain ⟨flds2, d3, p3, l3⟩ := q4
                    simp only [hrest, Except.ok.injEq, Prod.mk.injEq] at hdec
                    obtain ⟨hfl, hdr, -, -⟩ := hdec
                    subst hfl hdr
                    have htw2 : Tag.wire_type ⟨toI32 (v : Int), lv⟩ = 2 := h2k
                    exact scalar_len_branch ih hu hv31
                      (rfl : (⟨toI32 (v : Int), lv⟩ : Tag).first_number = toI32 (v : Int))
                      htw2 hlv32 hgf him hrd hrest htag hlen hct
              · rw [if_neg hbr] at hdec
                have hwt0 := checkTagged_wire hgf him hct
                have hwt2 : (toI32 (v : Int) % 8).toNat = fdef.wire_type := hwt0
                exact absurd (Or.inr (Or.inr (by omega))) hbr

/-! C1: decode/encode round trip (`MessageData::new` / `MessageData::write`). -/

/-- `message Test5 { repeated int32 f = 6; }` — the repository's packed
test schema. -/
def fProto : FieldProto := { name := "f", id := 6, repeated := true, type := .int32 }

def test5 : MessageProto := { name := "Test5", fields := [fProto] }

def protoT5 : ProtoData := { messages := [test5], unknown_field := unknown_field_proto }

/-- The repository's packed test vector: field 6, `WT_LEN`, payload
`[3, 270, 86942]` as packed varints. -/
def packedBytes : List Nat := [0x32, 0x06, 0x03, 0x8e, 0x02, 0x9e, 0xa7, 0x05]

/-- C1, counterexample: the repository's own packed-field test vector
decodes successfully (three elements of field 6), but re-encoding the
unmodified tree emits each element with its own `WT_VARINT` tag
(`0x30`), so the output differs from the input — the round trip fails on
packed fields. -/
theorem C1_roundtrip_counterexample :
    MessageData.new protoT5 test5 8 packedBytes 0 8 =
      .ok (.mk test5 [.mk fProto 2 (.SCALAR (.I32 3)), .mk fProto 3 (.SCALAR (.I32 270)),
        .mk fProto 5 (.SCALAR (.I32 86942))], [], 8, 0) ∧
    MessageData.write (.mk test5 [.mk fProto 2 (.SCALAR (.I32 3)),
        .mk fProto 3 (.SCALAR (.I32 270)), .mk fProto 5 (.SCALAR (.I32 86942))]) =
      some [0x30, 0x03, 0x30, 0x8e, 0x02, 0x30, 0x9e, 0xa7, 0x05] ∧
    [0x30, 0x03, 0x30, 0x8e, 0x02, 0x30, 0x9e, 0xa7, 0x05] ≠ packedBytes :=
  ⟨rfl, rfl, by decide⟩

/-- C1, amended: for every byte sequence in the encoder's canonical form
(`checkFields`), a successful decode (`MessageData.new`) re-encodes
(`MessageData.write`) to exactly the consumed bytes: `w ++ d = data`
where `d` is the unconsumed remainder.  This covers all scalar kinds,
nested messages, repeated fields and unknown field numbers; packed
fields are excluded by the canonical form (the encoder never emits
them, and the counterexample shows the round trip indeed fails there). -/
theorem C1_roundtrip_amended (proto : ProtoData) (mdef : MessageProto) (fuel : Nat)
    (data : List Nat) (pos limit : Nat) (msg : MessageData) (d : List Nat) (p l : Nat)
    (hu : proto.unknown_field.type = .unknownTy)
    (hdec : MessageData.new proto mdef fuel data pos limit = .ok (msg, d, p, l))
    (hchk : checkFields proto mdef fuel data pos limit = true) :
    ∃ w, msg.write = some w ∧ w ++ d = data := by
  unfold MessageData.new at hdec
  cases hdf : decodeFields proto mdef fuel data pos limit with
  | error e => rw [hdf] at hdec; simp at hdec
  | ok q =>
    obtain ⟨flds, dr, pr, lr⟩ := q
    rw [hdf] at hdec
    simp only [Except.ok.injEq, Prod.mk.injEq] at hdec
    obtain ⟨hm, hd, -, -⟩ := hdec
    obtain ⟨w, hw, hcat⟩ :=
      decodeFields_reencode fuel proto mdef data pos limit flds dr pr lr hu hdf hchk
    subst hd
    refine ⟨w, ?_, hcat⟩
    rw [← hm]
    simp only [MessageData.write]
    exact hw

/-- `message Test5 { repeated int32 f = 10; }` — the repository's
`scalars_repeated` schema. -/
def f10 : FieldProto := { name := "f", id := 10, repeated := true, type := .int32 }

def m10 : MessageProto := { name := "Test5", fields := [f10] }

def p10 : ProtoData := { messages := [m10], unknown_field := unknown_field_proto }

/-- Witness for `C1_roundtrip_amended`: the repository's
`scalars_repeated` vector `[0x50, 0x01, 0x50, 0x0B]` decodes, passes the
canonicity check, and re-encodes to exactly the input. -/
theorem C1_roundtrip_amended_witness :
    ∃ w, MessageData.write
        (.mk m10 [.mk f10 1 (.SCALAR (.I32 1)), .mk f10 3 (.SCALAR (.I32 11))]) = some w ∧
      w ++ [] = [0x50, 0x01, 0x50, 0x0B] :=
  C1_roundtrip_amended p10 m10 4 [0x50, 0x01, 0x50, 0x0B] 0 4
    (.mk m10 [.mk f10 1 (.SCALAR (.I32 1)), .mk f10 3 (.SCALAR (.I32 11))]) [] 4 0
    rfl rfl (by decide)

/-! C5: length-delimited budget checks (`PbReader::read_len` and the
message branch of `MessageData::new`). -/

/-- C5, amended (string/bytes side): a length-delimited scalar payload
goes through `PbReader::read_len`, so a declared length exceeding the
remaining budget fails with `truncatedInput`, and a fitting declared
length consumes exactly `flen` bytes (and `flen` budget). -/
theorem C5_len_budget_amended (fdef : FieldProto) (data : List Nat) (pos limit flen : Nat)
    (hwt : fdef.wire_type = 2) (hmsg : fdef.is_message = false) :
    (limit < flen → fdef.read data pos limit flen = .error .truncatedInput) ∧
    (flen ≤ limit → flen ≤ data.length →
      ∃ sv, fdef.read data pos limit flen =
        .ok (sv, data.drop flen, pos + flen, limit - flen)) := by
  rcases fdef with ⟨name, id, rep, ty⟩
  cases ty
  case str =>
    constructor
    · intro hlt
      have hrl : read_len data pos flen limit = .error .truncatedInput := by
        unfold read_len
        rw [if_neg (by omega)]
      simp only [FieldProto.read, hrl]
    · intro h1 h2
      have hrl : read_len data pos flen limit =
          .ok (data.take flen, data.drop flen, pos + flen, limit - flen) := by
        unfold read_len
        rw [if_pos h1, if_pos h2]
      simp only [FieldProto.read, hrl]
      by_cases hu : isValidUtf8 (data.take flen) = true
      · exact ⟨.STR (data.take flen), by rw [if_pos hu]⟩
      · exact ⟨.STR wrong_unicode_data, by rw [if_neg hu]⟩
  case bytes =>
    constructor
    · intro hlt
      have hrl : read_len data pos flen limit = .error .truncatedInput := by
        unfold read_len
        rw [if_neg (by omega)]
      simp only [FieldProto.read, hrl]
    · intro h1 h2
      have hrl : read_len data pos flen limit =
          .ok (data.take flen, data.drop flen, pos + flen, limit - flen) := by
        unfold read_len
        rw [if_pos h1, if_pos h2]
      simp only [FieldProto.read, hrl]
      exact ⟨.BYTES (data.take flen), rfl⟩
  all_goals first
    | (simp [FieldProto.wire_type] at hwt
       done)
    | (simp [FieldProto.is_message] at hmsg
       done)

/-- Witness for `C5_len_budget_amended` on a `bytes` field: declared
length 3 against budget 1 is a truncation error; declared length 2
against budget 3 consumes exactly two of the three bytes. -/
theorem C5_len_budget_amended_witness :
    FieldProto.read ⟨"b", 1, false, .bytes⟩ [7, 8, 9] 0 1 3 = .error .truncatedInput ∧
    ∃ sv, FieldProto.read ⟨"b", 1, false, .bytes⟩ [7, 8, 9] 0 3 2 = .ok (sv, [9], 2, 1) :=
  ⟨(C5_len_budget_amended ⟨"b", 1, false, .bytes⟩ [7, 8, 9] 0 1 3 rfl rfl).1 (by decide),
   (C5_len_budget_amended ⟨"b", 1, false, .bytes⟩ [7, 8, 9] 0 3 2 rfl rfl).2
     (by decide) (by decide)⟩

/-- Schema `message Outer { Sub m = 2; }  message Sub {}`. -/
def subM : MessageProto := { name := "Sub", fields := [] }

def msgF : FieldProto := { name := "m", id := 2, repeated := false, type := .message "Sub" }

def outerM : MessageProto := { name := "Outer", fields := [msgF] }

def protoMsg : ProtoData := { messages := [outerM, subM], unknown_field := unknown_field_proto }

/-- C5, counterexample (message side): on `[0x12, 0x05, 0x00]` with
budget 3, field 2 declares a 5-byte sub-message while only 1 budget byte
remains.  The message branch of `MessageData::new` never runs the
`read_len` truncation check: it hands the declared length to the
sub-decoder as a fresh budget (the enclosing budget is wrapped by
`*limit -= tag.length`, here `wsub32 1 5 = 2^32 - 4`), and the failure
surfaces as `unexpectedEof` from a later varint read, not as
`truncatedInput`. -/
theorem C5_truncation_counterexample :
    MessageData.new protoMsg outerM 8 [0x12, 0x05, 0x00] 0 3 =
      .error .unexpectedEof ∧
    PbError.unexpectedEof ≠ PbError.truncatedInput ∧
    wsub32 1 5 = 2 ^ 32 - 4 :=
  ⟨rfl, by decide, by decide⟩

/-! Field paths and `MessageData::apply` (`wire.rs` / `trz.rs`).
In-place mutation is modelled by state passing: each mutating source
function returns the updated tree, and `applyF` returns the triple
(result, tree, change) that the caller observes after the `&mut`
call. -/

/-- `FieldPos`. -/
structure FieldPos where
  id : Int
  index : Nat
deriving DecidableEq

/-- `ChangeType` (`trz.rs`). -/
inductive ChangeType where
  | Overwrite (v : FieldValue)
  | Insert (v : FieldValue)
  | Delete

/-- `Change` (`trz.rs`); `FieldPath` is its list of components. -/
structure Change where
  path : List FieldPos
  action : ChangeType

/-- Scan loop of `MessageData::get_field_pos`: position of the
`index`-th field carrying `id`, decrementing `index` past earlier
occurrences; returns the found position and the leftover count. -/
def get_field_pos_go : List FieldData → Int → Nat → Nat → Option Nat × Nat
  | [], _, index, _ => (none, index)
  | f :: rest, id, index, k =>
    if f.id = id then
      if index = 0 then (some k, 0)
      else get_field_pos_go rest id (index - 1) (k + 1)
    else get_field_pos_go rest id index (k + 1)

/-- `MessageData::get_field_pos`. -/
def MessageData.get_field_pos (m : MessageData) (id : Int) (index : Nat) : Option Nat :=
  match get_field_pos_go m.fields id index 0 with
  | (pos, 0) => pos
  | _ => none

/-- `split_last` on a path: `(init, last)`. -/
def splitLast : List FieldPos → Option (List FieldPos × FieldPos)
  | [] => none
  | [p] => some ([], p)
  | p :: q :: rest =>
    match splitLast (q :: rest) with
    | some (o, l) => some (p :: o, l)
    | none => none

/-- `MessageData::get_submessage_mut`, continuation style: descend the
path through `MESSAGE` values and apply `act` to the target, rebuilding
the spine. -/
def MessageData.with_submessage {α : Type} :
    MessageData → List FieldPos → (MessageData → Option (MessageData × α)) →
      Option (MessageData × α)
  | m, [], act => act m
  | m, p :: rest, act =>
    match m.get_field_pos p.id p.index with
    | none => none
    | some pos =>
      match m.fields[pos]? with
      | none => none
      | some fd =>
        match fd.value with
        | .MESSAGE sub =>
          match with_submessage sub rest act with
          | none => none
          | some (sub2, a) =>
            some (.mk m.defn (m.fields.set pos (.mk fd.defn fd.pos (.MESSAGE sub2))), a)
        | _ => none

/-- `get_field_mut` at the last path component plus the `mem::swap` of
`ChangeType::Overwrite`: returns the new tree and the old value. -/
def MessageData.swap_value_at (m : MessageData) (id : Int) (index : Nat) (v : FieldValue) :
    Option (MessageData × FieldValue) :=
  match m.get_field_pos id index with
  | none => none
  | some pos =>
    match m.fields[pos]? with
    | none => none
    | some fd => some (.mk m.defn (m.fields.set pos (.mk fd.defn fd.pos v)), fd.value)

/-- `MessageData::add_field_private` with the subsequent `mem::swap` of
`ChangeType::Insert` folded in: the inserted field ends up holding `v`
(the swapped-out default is discarded when the action becomes
`Delete`). -/
def MessageData.add_field_private (m : MessageData) (id : Int) (index : Nat)
    (v : FieldValue) : Option (MessageData × Unit) :=
  match m.defn.get_field id with
  | none => none
  | some fdef =>
    let insert_pos :=
      match m.get_field_pos id index with
      | some pos => pos
      | none => m.fields.length
    some (.mk m.defn (m.fields.insertIdx insert_pos (.mk fdef usize_max v)), ())

/-- `MessageData::delete_field_private`: returns the new tree and the
removed value. -/
def MessageData.delete_field_private (m : MessageData) (id : Int) (index : Nat) :
    Option (MessageData × FieldValue) :=
  match m.get_field_pos id index with
  | none => none
  | some pos =>
    match m.fields[pos]? with
    | none => none
    | some fd => some (.mk m.defn (m.fields.eraseIdx pos), fd.value)

/-- `MessageData::apply`: the observable effect on `(self, change)`.
`none` in the first component models the `?`-failure, after which the
source has performed no mutation. -/
def MessageData.applyF (m : MessageData) (c : Change) : Option Unit × MessageData × Change :=
  match c.action with
  | .Overwrite v =>
    match splitLast c.path with
    | none => (none, m, c)
    | some (others, last) =>
      match m.with_submessage others (fun t => t.swap_value_at last.id last.index v) with
      | none => (none, m, c)
      | some (m2, old) => (some (), m2, ⟨c.path, .Overwrite old⟩)
  | .Insert v =>
    match splitLast c.path with
    | none => (none, m, c)
    | some (others, last) =>
      match m.with_submessage others
          (fun t => t.add_field_private last.id last.index v) with
      | none => (none, m, c)
      | some (m2, _) => (some (), m2, ⟨c.path, .Delete⟩)
  | .Delete =>
    match splitLast c.path with
    | none => (none, m, c)
    | some (others, last) =>
      match m.with_submessage others
          (fun t => t.delete_field_private last.id last.index) with
      | none => (none, m, c)
      | some (m2, removed) => (some (), m2, ⟨c.path, .Insert removed⟩)

/-! C4: Insert/Delete inversion through `MessageData::apply`. -/

/-- `message AB { repeated int32 a = 1; int32 b = 2; }` and the document
decoded from `[8, 1, 16, 2, 8, 3]` — two occurrences of field 1
interleaved with one of field 2. -/
def fA : FieldProto := { name := "a", id := 1, repeated := true, type := .int32 }

def fB : FieldProto := { name := "b", id := 2, repeated := false, type := .int32 }

def mAB : MessageProto := { name := "AB", fields := [fA, fB] }

def pAB : ProtoData := { messages := [mAB], unknown_field := unknown_field_proto }

def docAB : MessageData := .mk mAB
  [.mk fA 1 (.SCALAR (.I32 1)), .mk fB 3 (.SCALAR (.I32 2)), .mk fA 5 (.SCALAR (.I32 3))]

def docAB_del : MessageData := .mk mAB
  [.mk fB 3 (.SCALAR (.I32 2)), .mk fA 5 (.SCALAR (.I32 3))]

def docAB_undo : MessageData := .mk mAB
  [.mk fB 3 (.SCALAR (.I32 2)), .mk fA usize_max (.SCALAR (.I32 1)),
   .mk fA 5 (.SCALAR (.I32 3))]

/-- C4, code bug: on the document decoded from `[8, 1, 16, 2, 8, 3]`,
applying `Delete` at path `[(1, 0)]` and then applying the inverse the
code itself produced (`Insert` of the removed value at the same path)
yields a document that serializes to `[16, 2, 8, 1, 8, 3]`, not the
original bytes: the undo re-inserts the value at the position of the
*current* first field 1 (after field 2), not at the deleted position, so
interleaved same-id fields are reordered. -/
theorem C4_delete_undo_divergence :
    MessageData.new pAB mAB 8 [8, 1, 16, 2, 8, 3] 0 6 = .ok (docAB, [], 6, 0) ∧
    MessageData.applyF docAB ⟨[⟨1, 0⟩], .Delete⟩ =
      (some (), docAB_del, ⟨[⟨1, 0⟩], .Insert (.SCALAR (.I32 1))⟩) ∧
    MessageData.applyF docAB_del ⟨[⟨1, 0⟩], .Insert (.SCALAR (.I32 1))⟩ =
      (some (), docAB_undo, ⟨[⟨1, 0⟩], .Delete⟩) ∧
    MessageData.write docAB = some [8, 1, 16, 2, 8, 3] ∧
    MessageData.write docAB_undo = some [16, 2, 8, 1, 8, 3] ∧
    ([16, 2, 8, 1, 8, 3] : List Nat) ≠ [8, 1, 16, 2, 8, 3] :=
  ⟨rfl, rfl, rfl, rfl, rfl, by decide⟩

/-! C10: failed `MessageData::apply` calls.  -/

/-- C10: whenever `apply` fails (`None`), the caller observes the
document tree exactly as it was and the unchanged change object — in
particular a failed `Insert` is not rewritten to `Delete`. -/
theorem C10_failed_apply (m : MessageData) (c : Change)
    (h : (MessageData.applyF m c).1 = none) :
    MessageData.applyF m c = (none, m, c) := by
  rcases c with ⟨path, action⟩
  cases action with
  | Overwrite v =>
    simp only [MessageData.applyF] at h ⊢
    cases hs : splitLast path with
    | none => simp only [hs]
    | some q =>
      obtain ⟨others, last⟩ := q
      simp only [hs] at h ⊢
      cases hw : MessageData.with_submessage m others
          (fun t => t.swap_value_at last.id last.index v) with
      | none => simp only [hw]
      | some r =>
        obtain ⟨m2, old⟩ := r
        simp only [hw] at h
        simp at h
  | Insert v =>
    simp only [MessageData.applyF] at h ⊢
    cases hs : splitLast path with
    | none => simp only [hs]
    | some q =>
      obtain ⟨others, last⟩ := q
      simp only [hs] at h ⊢
      cases hw : MessageData.with_submessage m others
          (fun t => t.add_field_private last.id last.index v) with
      | none => simp only [hw]
      | some r =>
        obtain ⟨m2, u⟩ := r
        simp only [hw] at h
        simp at h
  | Delete =>
    simp only [MessageData.applyF] at h ⊢
    cases hs : splitLast path with
    | none => simp only [hs]
    | some q =>
      obtain ⟨others, last⟩ := q
      simp only [hs] at h ⊢
      cases hw : MessageData.with_submessage m others
          (fun t => t.delete_field_private last.id last.index) with
      | none => simp only [hw]
      | some r =>
        obtain ⟨m2, removed⟩ := r
        simp only [hw] at h
        simp at h

/-- Witness for `C10_failed_apply`: inserting a field number that the
message does not declare fails and leaves the empty document and the
`Insert` change untouched. -/
theorem C10_failed_apply_witness :
    MessageData.applyF (.mk mAB []) ⟨[⟨99, 0⟩], .Insert (.SCALAR (.I32 7))⟩ =
      (none, .mk mAB [], ⟨[⟨99, 0⟩], .Insert (.SCALAR (.I32 7))⟩) :=
  C10_failed_apply (.mk mAB []) ⟨[⟨99, 0⟩], .Insert (.SCALAR (.I32 7))⟩ rfl

/-! C8: `MessageData::get_sorted_fields` under `FieldOrder::Wire`. -/

/-- Occurrence-indexing pass of the `Wire` arm: the source's
`HashMap<i32, usize>` of running per-id counters, modelled as an
association list; each field is emitted with its per-id occurrence
ordinal. -/
def assoc_update : List (Int × Nat) → Int → Nat → List (Int × Nat)
  | [], id, v => [(id, v)]
  | (k, w) :: rest, id, v =>
    if k = id then (id, v) :: rest else (k, w) :: assoc_update rest id v

def wire_positions_go : List FieldData → List (Int × Nat) → List FieldPos
  | [], _ => []
  | f :: rest, idxs =>
    match idxs.lookup f.id with
    | some i => ⟨f.id, i + 1⟩ :: wire_positions_go rest (assoc_update idxs f.id (i + 1))
    | none => ⟨f.id, 0⟩ :: wire_positions_go rest ((f.id, 0) :: idxs)

/-- The union loop of the `Wire` arm (`peekable` iteration with
`current`/`amount` state: a fresh run starts whenever `amount == 0`,
and a run is pushed whenever the peeked element carries another id or
the input ends). -/
def union_runs_go : List FieldPos → FieldPos → Nat → List (FieldPos × Nat)
  | [], _, _ => []
  | [v], _, 0 => [(v, 1)]
  | [_], current, amount + 1 => [(current, amount + 2)]
  | v :: w :: t, _, 0 =>
    if w.id = v.id then union_runs_go (w :: t) v 1
    else (v, 1) :: union_runs_go (w :: t) v 0
  | v :: w :: t, current, amount + 1 =>
    if w.id = v.id then union_runs_go (w :: t) current (amount + 2)
    else (current, amount + 2) :: union_runs_go (w :: t) current 0

/-- `MessageData::get_sorted_fields(&FieldOrder::Wire)`. -/
def MessageData.get_sorted_fields_wire (m : MessageData) : List (FieldPos × Nat) :=
  union_runs_go (wire_positions_go m.fields []) ⟨0, 0⟩ 0

/-- Spec-side definition, from the specification's words: group the
decode-order occurrence-indexed positions into maximal contiguous runs
of one field number; each run becomes one `(first element, length)`
pair, and a later non-contiguous reappearance of the same number starts
a new pair. -/
def spec_runs : List FieldPos → List (FieldPos × Nat)
  | [] => []
  | [v] => [(v, 1)]
  | v :: w :: t =>
    if w.id = v.id then
      match spec_runs (w :: t) with
      | (_, k) :: tail => (v, k + 1) :: tail
      | [] => [(v, 1)]
    else (v, 1) :: spec_runs (w :: t)

def spec_sorted_fields_wire (m : MessageData) : List (FieldPos × Nat) :=
  spec_runs (wire_positions_go m.fields [])

theorem spec_runs_cons_ne (v : FieldPos) (rest : List FieldPos) :
    spec_runs (v :: rest) ≠ [] := by
  cases rest with
  | nil => simp [spec_runs]
  | cons w t =>
    simp only [spec_runs]
    split
    · split <;> simp
    · simp

/-- The union loop computes exactly the run grouping, at every loop
state. -/
theorem union_go_spec : ∀ l : List FieldPos,
    (∀ c, union_runs_go l c 0 = spec_runs l) ∧
    (∀ c n, n ≠ 0 → union_runs_go l c n =
      match spec_runs l with
      | (_, k) :: tail => (c, k + n) :: tail
      | [] => []) := by
  intro l
  induction l with
  | nil => exact ⟨fun c => rfl, fun c n hn => rfl⟩
  | cons v rest ih =>
    obtain ⟨ih0, ih1⟩ := ih
    constructor
    · intro c
      cases rest with
      | nil => rfl
      | cons w t =>
        simp only [union_runs_go, spec_runs]
        by_cases hw : w.id = v.id
        · rw [if_pos hw, if_pos hw, ih1 v 1 (by omega)]
          cases hs : spec_runs (w :: t) with
          | nil => exact absurd hs (spec_runs_cons_ne w t)
          | cons p tail =>
            obtain ⟨q, k⟩ := p
            rfl
        · rw [if_neg hw, if_neg hw, ih0 v]
    · intro c n hn
      obtain ⟨m, rfl⟩ : ∃ m, n = m + 1 := ⟨n - 1, by omega⟩
      cases rest with
      | nil =>
        have h12 : 1 + (m + 1) = m + 2 := by omega
        show [(c, m + 2)] = [(c, 1 + (m + 1))]
        rw [h12]
      | cons w t =>
        simp only [union_runs_go, spec_runs]
        by_cases hw : w.id = v.id
        · rw [if_pos hw, if_pos hw, ih1 c (m + 2) (by omega)]
          cases hs : spec_runs (w :: t) with
          | nil => exact absurd hs (spec_runs_cons_ne w t)
          | cons p tail =>
            obtain ⟨q, k⟩ := p
            show (c, k + (m + 2)) :: tail = (c, k + 1 + (m + 1)) :: tail
            congr 2
            omega
        · rw [if_neg hw, if_neg hw, ih0 c]
          have h12 : 1 + (m + 1) = m + 2 := by omega
          show (c, m + 2) :: spec_runs (w :: t) = (c, 1 + (m + 1)) :: spec_runs (w :: t)
          rw [h12]

/-- C8: under `FieldOrder::Wire`, `get_sorted_fields` returns the
decode-order fields grouped into contiguous runs of one field number,
each as one `(first-occurrence position, occurrence count)` pair; a
later non-contiguous reappearance of a number starts a new pair. -/
theorem C8_wire_grouping (m : MessageData) :
    m.get_sorted_fields_wire = spec_sorted_fields_wire m :=
  (union_go_spec (wire_positions_go m.fields [])).1 ⟨0, 0⟩

/-! C6: the indentation negotiation table (`IndentsCalc`, `view.rs`).
Columns are `u16`; wrapping additions carry an explicit `% 2 ^ 16`. -/

/-- `u16` wrap. -/
def u16w (n : Nat) : Nat := n % 2 ^ 16

def MARGIN_LEFT : Nat := 1

def NEXT_LEVEL_INDENT : Nat := 2

/-- The `while self.level_indents.len() <= level` extension loop, run a
fixed number of times: each step pushes `NEXT_LEVEL_INDENT + last`. -/
def extendTable_go : Nat → List Nat → List Nat
  | 0, t => t
  | k + 1, t => extendTable_go k (t ++ [u16w (NEXT_LEVEL_INDENT + (t.getLast?.getD 0))])

/-- The `for i in level + 1..len` cascade: set each deeper column to its
parent plus `NEXT_LEVEL_INDENT`. -/
def cascade_go : Nat → List Nat → Nat → List Nat
  | 0, t, _ => t
  | k + 1, t, i => cascade_go k (t.set i (u16w (t.getD (i - 1) 0 + NEXT_LEVEL_INDENT))) (i + 1)

/-- `IndentsCalc::add` (state-passing: returns the updated table and the
returned column).  The source decrements `level` first (call sites pass
`level >= 1`). -/
def IndentsCalc.add (t0 : List Nat) (first_column_width lvl : Nat) : List Nat × Nat :=
  let level := lvl - 1
  let t1 := extendTable_go (level + 1 - t0.length) t0
  let new_width := u16w (MARGIN_LEFT + u16w first_column_width)
  if t1.getD level 0 < new_width then
    let t2 := t1.set level new_width
    let t3 := cascade_go (t1.length - (level + 1)) t2 (level + 1)
    (t3, t3.getD level 0)
  else (t1, t1.getD level 0)

/-- C6, counterexample: `add(10, 2)` raises level 2's column to 11, but
a following `add(5, 1)` cascades level 2 back down to 8 — the table does
not only grow within a pass, and level 2 loses the `margin + width`
floor its own `add` had established. -/
theorem C6_indents_counterexample :
    IndentsCalc.add [] 10 2 = ([2, 11], 11) ∧
    IndentsCalc.add [2, 11] 5 1 = ([6, 8], 6) ∧
    ¬(11 : Nat) ≤ 8 :=
  ⟨rfl, rfl, by decide⟩

/-- Gap invariant on the first `n` columns: each column sits at least
`NEXT_LEVEL_INDENT` past its parent. -/
def chainTo (t : List Nat) (n : Nat) : Prop :=
  ∀ j, j + 1 < n → t.getD j 0 + 2 ≤ t.getD (j + 1) 0

/-- Gap invariant on the whole table. -/
def chainInv (t : List Nat) : Prop := chainTo t t.length

theorem extend_inv : ∀ (k : Nat) (t : List Nat) (c : Nat),
    chainInv t → (∀ x ∈ t, x + (2 * k + c) < 2 ^ 16) → 2 * k + c < 2 ^ 16 →
    chainInv (extendTable_go k t) ∧
      (∀ x ∈ extendTable_go k t, x + c < 2 ^ 16) ∧
      (extendTable_go k t).length = t.length + k ∧
      (∀ j, j < t.length → (extendTable_go k t).getD j 0 = t.getD j 0) := by
  intro k
  induction k with
  | zero =>
    intro t c h1 h2 h3
    exact ⟨h1, fun x hx => by have := h2 x hx; omega, by simp [extendTable_go],
      fun j hj => rfl⟩
  | succ k ih =>
    intro t c h1 h2 h3
    have hlastb : t.getLast?.getD 0 + (2 * (k + 1) + c) < 2 ^ 16 := by
      cases hl : t.getLast? with
      | none => simpa using h3
      | some a =>
        have ha : a ∈ t := List.mem_of_mem_getLast? (by rw [hl]; rfl)
        simpa [hl] using h2 a ha
    have hvv : u16w (NEXT_LEVEL_INDENT + t.getLast?.getD 0) =
        t.getLast?.getD 0 + 2 := by
      unfold u16w NEXT_LEVEL_INDENT
      rw [Nat.mod_eq_of_lt (by omega)]
      omega
    have hstep : extendTable_go (k + 1) t =
        extendTable_go k (t ++ [t.getLast?.getD 0 + 2]) := by
      rw [extendTable_go, hvv]
    rw [hstep]
    have hgetlast : t ≠ [] → t.getD (t.length - 1) 0 = t.getLast?.getD 0 := by
      intro hne
      rw [List.getD_eq_getElem?_getD, ← List.getLast?_eq_getElem?]
    have happ_lt : ∀ j, j < t.length →
        (t ++ [t.getLast?.getD 0 + 2]).getD j 0 = t.getD j 0 := by
      intro j hj
      rw [List.getD_eq_getElem?_getD, List.getD_eq_getElem?_getD,
        List.getElem?_append, if_pos hj]
    have happ_last : (t ++ [t.getLast?.getD 0 + 2]).getD t.length 0 =
        t.getLast?.getD 0 + 2 := by
      rw [List.getD_eq_getElem?_getD, List.getElem?_concat_length]
      rfl
    have h1' : chainInv (t ++ [t.getLast?.getD 0 + 2]) := by
      intro j hj
      simp only [List.length_append, List.length_cons, List.length_nil] at hj
      by_cases hj2 : j + 1 < t.length
      · rw [happ_lt j (by omega), happ_lt (j + 1) hj2]
        exact h1 j hj2
      · have hje : j + 1 = t.length := by omega
        have hne : t ≠ [] := by
          intro he
          subst he
          simp at hje
        rw [happ_lt j (by omega), hje, happ_last]
        have hg := hgetlast hne
        have hjj : j = t.length - 1 := by omega
        rw [hjj, hg]
    have h2' : ∀ x ∈ t ++ [t.getLast?.getD 0 + 2], x + (2 * k + c) < 2 ^ 16 := by
      intro x hx
      rcases List.mem_append.mp hx with hx | hx
      · have := h2 x hx; omega
      · simp at hx
        omega
    obtain ⟨r1, r2, r3, r4⟩ := ih (t ++ [t.getLast?.getD 0 + 2]) c h1' h2' (by omega)
    refine ⟨r1, r2, ?_, ?_⟩
    · rw [r3]
      simp
      omega
    · intro j hj
      rw [r4 j (by simp; omega), happ_lt j hj]

theorem cascade_inv : ∀ (k : Nat) (t : List Nat) (i : Nat),
    1 ≤ i → i + k = t.length →
    chainTo t i →
    t.getD (i - 1) 0 + 2 * k < 2 ^ 16 →
    chainInv (cascade_go k t i) ∧
      (cascade_go k t i).length = t.length ∧
      (∀ j, j < i → (cascade_go k t i).getD j 0 = t.getD j 0) := by
  intro k
  induction k with
  | zero =>
    intro t i h1 h2 h3 h4
    refine ⟨?_, rfl, fun j hj => rfl⟩
    intro j hj
    simp only [cascade_go] at hj ⊢
    exact h3 j (by omega)
  | succ k ih =>
    intro t i h1 h2 h3 h4
    have hilt : i < t.length := by omega
    have hwv : u16w (t.getD (i - 1) 0 + NEXT_LEVEL_INDENT) = t.getD (i - 1) 0 + 2 := by
      unfold u16w NEXT_LEVEL_INDENT
      rw [Nat.mod_eq_of_lt (by omega)]
    have hstep : cascade_go (k + 1) t i =
        cascade_go k (t.set i (t.getD (i - 1) 0 + 2)) (i + 1) := by
      rw [cascade_go, hwv]
    rw [hstep]
    have hset_ne : ∀ j, j ≠ i → (t.set i (t.getD (i - 1) 0 + 2)).getD j 0 = t.getD j 0 := by
      intro j hj
      simp only [List.getD_eq_getElem?_getD]
      rw [List.getElem?_set_ne (show i ≠ j by omega)]
    have hset_eq : (t.set i (t.getD (i - 1) 0 + 2)).getD i 0 = t.getD (i - 1) 0 + 2 := by
      rw [List.getD_eq_getElem?_getD, List.getElem?_set_self hilt]
      rfl
    have h3' : chainTo (t.set i (t.getD (i - 1) 0 + 2)) (i + 1) := by
      intro j hj
      by_cases hji : j + 1 < i
      · rw [hset_ne j (by omega), hset_ne (j + 1) (by omega)]
        exact h3 j hji
      · have hje : j + 1 = i := by omega
        rw [hset_ne j (by omega), hje, hset_eq, show j = i - 1 by omega]
    obtain ⟨r1, r2, r3⟩ := ih (t.set i (t.getD (i - 1) 0 + 2)) (i + 1) (by omega)
      (by rw [List.length_set]; omega) h3'
      (by rw [show i + 1 - 1 = i by omega, hset_eq]; omega)
    refine ⟨r1, by rw [r2, List.length_set], ?_⟩
    intro j hj
    rw [r3 j (by omega), hset_ne j (by omega)]

/-- C6, amended: provided `level >= 1` and no column arithmetic wraps
`u16` (all columns and the requested width stay far enough below
`2 ^ 16`), `add(width, level)` preserves the gap invariant — every
deeper level's column is at least `NEXT_LEVEL_INDENT` past its
parent's — and returns level's (post-call) column, which is at least
`MARGIN_LEFT + width`.  The "table only grows" part of the claim is
refuted separately. -/
theorem C6_indents_amended (t : List Nat) (width lvl : Nat)
    (hlvl : 1 ≤ lvl)
    (hchain : chainInv t)
    (hw : MARGIN_LEFT + width + 2 * (lvl + 1 + t.length) < 2 ^ 16)
    (hb : ∀ x ∈ t, x + 2 * (lvl + 1 + t.length) < 2 ^ 16) :
    chainInv (IndentsCalc.add t width lvl).1 ∧
      MARGIN_LEFT + width ≤ (IndentsCalc.add t width lvl).2 ∧
      (IndentsCalc.add t width lvl).2 = (IndentsCalc.add t width lvl).1.getD (lvl - 1) 0 := by
  have hwu : u16w (MARGIN_LEFT + u16w width) = MARGIN_LEFT + width := by
    unfold u16w MARGIN_LEFT
    rw [Nat.mod_eq_of_lt (show width < 2 ^ 16 by omega),
      Nat.mod_eq_of_lt (by omega)]
  obtain ⟨e1, e2, e3, e4⟩ := extend_inv (lvl - 1 + 1 - t.length) t (2 * t.length + 2)
    hchain
    (fun x hx => by have := hb x hx; omega)
    (by omega)
  set t1 := extendTable_go (lvl - 1 + 1 - t.length) t with ht1
  have hlen1 : lvl - 1 < t1.length := by omega
  simp only [IndentsCalc.add, ← ht1, hwu]
  by_cases hcond : t1.getD (lvl - 1) 0 < MARGIN_LEFT + width
  · rw [if_pos hcond]
    have hset_eq : (t1.set (lvl - 1) (MARGIN_LEFT + width)).getD (lvl - 1) 0 =
        MARGIN_LEFT + width := by
      rw [List.getD_eq_getElem?_getD, List.getElem?_set_self hlen1]
      rfl
    have hset_ne : ∀ j, j ≠ lvl - 1 →
        (t1.set (lvl - 1) (MARGIN_LEFT + width)).getD j 0 = t1.getD j 0 := by
      intro j hj
      simp only [List.getD_eq_getElem?_getD]
      rw [List.getElem?_set_ne (show lvl - 1 ≠ j by omega)]
    have hchain2 : chainTo (t1.set (lvl - 1) (MARGIN_LEFT + width)) (lvl - 1 + 1) := by
      intro j hj
      by_cases hji : j + 1 < lvl - 1
      · rw [hset_ne j (by omega), hset_ne (j + 1) (by omega)]
        exact e1 j (by omega)
      · have hje : j + 1 = lvl - 1 := by omega
        rw [hset_ne j (by omega), hje, hset_eq]
        have hgap := e1 j (by omega)
        rw [hje] at hgap
        omega
    obtain ⟨c1, c2, c3⟩ := cascade_inv (t1.length - (lvl - 1 + 1))
      (t1.set (lvl - 1) (MARGIN_LEFT + width)) (lvl - 1 + 1)
      (by omega)
      (by rw [List.length_set]; omega)
      hchain2
      (by
        rw [show lvl - 1 + 1 - 1 = lvl - 1 by omega, hset_eq]
        have hk2 : t1.length - (lvl - 1 + 1) ≤ t.length := by omega
        omega)
    refine ⟨c1, ?_, ?_⟩
    · rw [c3 (lvl - 1) (by omega), hset_eq]
    · rfl
  · rw [if_neg hcond]
    exact ⟨e1, by omega, rfl⟩

/-- Witness for `C6_indents_amended`: `add(3, 1)` on the empty table. -/
theorem C6_indents_amended_witness :
    chainInv (IndentsCalc.add [] 3 1).1 ∧
      MARGIN_LEFT + 3 ≤ (IndentsCalc.add [] 3 1).2 ∧
      (IndentsCalc.add [] 3 1).2 = (IndentsCalc.add [] 3 1).1.getD 0 0 :=
  C6_indents_amended [] 3 1 (by decide) (fun j hj => by simp at hj) (by decide)
    (fun x hx => by simp at hx)

/-! C7: `Layouts::calc_relative_pos` (`view.rs`).  The function reads
only each layout's `level()` (= path length) and `children_count`, which
the model carries directly; `f32` arithmetic is modelled by exact
rationals. -/

/-- The two fields of `LayoutParams` that `calc_relative_pos` reads. -/
structure LayoutRec where
  level : Nat
  children_count : Nat
deriving DecidableEq

/-- The backward walk of `calc_relative_pos`: from `pos` down to 0,
recording `(index, children_count)` at each level decrease; `index`
counts same-level entries passed (so it restarts at 1 below a level
decrease and starts at 0 for the top-level entry). -/
def calc_go (items : List LayoutRec) : Nat → Nat → Nat → List Nat → Option (List Nat)
  | 0, index, level, acc =>
    match items.get? 0 with
    | none => none
    | some layout =>
      if layout.level < level then some (acc ++ [index, layout.children_count] ++ [0])
      else some (acc ++ [index])
  | pos + 1, index, level, acc =>
    match items.get? (pos + 1) with
    | none => none
    | some layout =>
      if layout.level < level then
        calc_go items pos 1 layout.level (acc ++ [index, layout.children_count])
      else
        calc_go items pos (if layout.level = level then index + 1 else index) level acc

/-- The stack-popping fold: pairs are consumed from the end of the
stack, i.e. root-down (`position += valuable * (index / size);
valuable /= size + 1`, skipping `size == 0`). -/
def fold_pairs : List Nat → ℚ → ℚ → ℚ
  | size :: index :: rest, position, valuable =>
    if 0 < size then
      fold_pairs rest (position + valuable * ((index : ℚ) / (size : ℚ)))
        (valuable / ((size : ℚ) + 1))
    else fold_pairs rest position valuable
  | _, position, _ => position

/-- `Layouts::calc_relative_pos`. -/
def calc_relative_pos (items : List LayoutRec) (top_layouts_count : Nat) (pos : Nat) : ℚ :=
  match calc_go items pos 0 usize_max [] with
  | none => if items.isEmpty then 0 else 1
  | some stack => fold_pairs ((stack ++ [top_layouts_count]).reverse) 0 1

/-- The layout list of the counterexample: a top-level entry with a
chain of last children four levels deep, followed by two further
top-level entries. -/
def deepItems : List LayoutRec :=
  [⟨1, 2⟩, ⟨2, 0⟩, ⟨2, 2⟩, ⟨3, 0⟩, ⟨3, 2⟩, ⟨4, 0⟩, ⟨4, 0⟩, ⟨1, 0⟩, ⟨1, 0⟩]

/-- C7, counterexample: `calc_relative_pos` is not non-decreasing: the
deepest last child (index 6) sits at 13/36, past the following
top-level entry (index 7) at 1/3 = 12/36. -/
theorem C7_relative_pos_counterexample :
    calc_relative_pos deepItems 3 6 = 13 / 36 ∧
    calc_relative_pos deepItems 3 7 = 1 / 3 ∧
    ¬(calc_relative_pos deepItems 3 6 ≤ calc_relative_pos deepItems 3 7) := by
  refine ⟨?_, ?_, ?_⟩ <;>
    norm_num [calc_relative_pos, calc_go, fold_pairs, deepItems, usize_max]

theorem calc_go_flat (items : List LayoutRec) (hflat : ∀ l ∈ items, l.level = 1) :
    ∀ j, j < items.length → ∀ index acc,
      calc_go items j index 1 acc = some (acc ++ [index + j]) := by
  intro j
  induction j with
  | zero =>
    intro hj index acc
    obtain ⟨l, hl⟩ : ∃ l, items.get? 0 = some l := by
      rw [List.get?_eq_getElem?]
      exact ⟨items[0], List.getElem?_eq_getElem hj⟩
    have hlv : l.level = 1 := hflat l (List.get?_mem hl)
    rw [calc_go, hl]
    simp [hlv]
  | succ j ih =>
    intro hj index acc
    obtain ⟨l, hl⟩ : ∃ l, items.get? (j + 1) = some l := by
      rw [List.get?_eq_getElem?]
      exact ⟨items[j + 1], List.getElem?_eq_getElem hj⟩
    have hlv : l.level = 1 := hflat l (List.get?_mem hl)
    rw [calc_go, hl]
    simp only [hlv, Nat.lt_irrefl, if_false, eq_self_iff_true, if_true]
    rw [ih (by omega) (index + 1) acc]
    have h : index + 1 + j = index + (j + 1) := by omega
    rw [h]

theorem calc_zero (items : List LayoutRec) (top : Nat) :
    calc_relative_pos items top 0 = 0 := by
  unfold calc_relative_pos
  cases hg : items.get? 0 with
  | none =>
    simp only [calc_go, hg]
    have h0 : items = [] := by
      cases items with
      | nil => rfl
      | cons a t => simp at hg
    simp [h0]
  | some l =>
    simp only [calc_go, hg]
    by_cases hlv : l.level < usize_max
    · rw [if_pos hlv]
      by_cases htop : 0 < top
      · by_cases hcc : 0 < l.children_count
        · simp [fold_pairs, htop, hcc]
        · simp [fold_pairs, htop, hcc]
      · by_cases hcc : 0 < l.children_count
        · simp [fold_pairs, htop, hcc]
        · simp [fold_pairs, htop, hcc]
    · rw [if_neg hlv]
      by_cases htop : 0 < top
      · simp [fold_pairs, htop]
      · simp [fold_pairs, htop]

theorem calc_flat (items : List LayoutRec) (top : Nat)
    (hflat : ∀ l ∈ items, l.level = 1) (htop : 0 < top)
    (p : Nat) (hp : p < items.length) :
    calc_relative_pos items top p = (p : ℚ) / (top : ℚ) := by
  obtain ⟨l, hl⟩ : ∃ l, items.get? p = some l := by
    rw [List.get?_eq_getElem?]
    exact ⟨items[p], List.getElem?_eq_getElem hp⟩
  have hlv : l.level = 1 := hflat l (List.get?_mem hl)
  cases p with
  | zero =>
    rw [calc_zero]
    simp
  | succ j =>
    unfold calc_relative_pos
    simp only [calc_go, hl]
    rw [hlv, if_pos (show (1:Nat) < usize_max by decide)]
    rw [calc_go_flat items hflat j (by omega) 1 ([] ++ [0, l.children_count])]
    by_cases hcc : 0 < l.children_count
    · simp [fold_pairs, htop, hcc]
      ring
    · simp [fold_pairs, htop, hcc]
      ring

/-- C7, amended: `calc_relative_pos` equals 0 at index 0 for every
layout list; and on a flat layout list (all entries at the top level)
with a positive `top_layouts_count`, it equals `index /
top_layouts_count` and is therefore strictly increasing between any
two entries — in particular between same-level siblings.  Global
non-decrease across nesting levels fails (see the counterexample): a
deep chain of last children can place an entry past the following
top-level entry. -/
theorem C7_relative_pos_amended (items : List LayoutRec) (top : Nat) :
    calc_relative_pos items top 0 = 0 ∧
    ((∀ l ∈ items, l.level = 1) → 0 < top →
      ∀ p, p < items.length →
        calc_relative_pos items top p = (p : ℚ) / (top : ℚ)) ∧
    ((∀ l ∈ items, l.level = 1) → 0 < top →
      ∀ p q, p < q → q < items.length →
        calc_relative_pos items top p < calc_relative_pos items top q) := by
  refine ⟨calc_zero items top, fun hflat htop p hp => calc_flat items top hflat htop p hp, ?_⟩
  intro hflat htop p q hpq hq
  rw [calc_flat items top hflat htop p (by omega),
    calc_flat items top hflat htop q hq]
  gcongr

/-- Witness for `C7_relative_pos_amended` on a flat two-entry layout
list with two visible top-level slots. -/
theorem C7_relative_pos_amended_witness :
    calc_relative_pos [⟨1, 0⟩, ⟨1, 0⟩] 2 0 = 0 ∧
    calc_relative_pos [⟨1, 0⟩, ⟨1, 0⟩] 2 1 = (1 : ℚ) / 2 ∧
    calc_relative_pos [⟨1, 0⟩, ⟨1, 0⟩] 2 0 < calc_relative_pos [⟨1, 0⟩, ⟨1, 0⟩] 2 1 := by
  obtain ⟨h0, h1, h2⟩ := C7_relative_pos_amended [⟨1, 0⟩, ⟨1, 0⟩] 2
  refine ⟨h0, ?_, ?_⟩
  · have h := h1 (by decide) (by decide) 1 (by decide)
    rw [h]
    norm_num
  · exact h2 (by decide) (by decide) 0 1 (by decide) (by decide)

/-! ### C9: collapse/expand of message layout entries (`view.rs`) -/

/-- `MessageData::get_submessage`: descend through `MESSAGE` values
along the path. -/
def MessageData.get_submessage : MessageData → List FieldPos → Option MessageData
  | m, [] => some m
  | m, p :: rest =>
    match m.get_field_pos p.id p.index with
    | none => none
    | some pos =>
      match m.fields[pos]? with
      | none => none
      | some fd =>
        match fd.value with
        | .MESSAGE sub => sub.get_submessage rest
        | _ => none

/-- `MessageData::get_field` (path form): submessage of the path prefix,
then the `index`-th field with the last component's id. -/
def MessageData.get_field (m : MessageData) (path : List FieldPos) : Option FieldData :=
  match splitLast path with
  | none => none
  | some (others, first) =>
    match m.get_submessage others with
    | none => none
    | some msg =>
      match msg.get_field_pos first.id first.index with
      | none => none
      | some pos => msg.fields[pos]?

/-- `MessageData::get_field_definition`: the schema entry for the last
path component, resolved in the parent submessage (works even when no
data was read for the field). -/
def MessageData.get_field_definition (m : MessageData) (path : List FieldPos) :
    Option FieldProto :=
  match splitLast path with
  | none => none
  | some (p, last) =>
    match m.get_submessage p with
    | none => none
    | some parent => parent.defn.get_field last.id

/-- `FieldOrder`. -/
inductive FieldOrder where
  | Proto
  | Wire
  | ByName
  | ById
deriving DecidableEq

/-- `MessageData::get_sorted_fields`: the `Wire` branch is the
run-merging loop; the other orders enumerate the (re-sorted for
`ByName`/`ById`, stable) schema fields with occurrence counts and
index 0. -/
def MessageData.get_sorted_fields (m : MessageData) (order : FieldOrder) :
    List (FieldPos × Nat) :=
  match order with
  | .Wire => m.get_sorted_fields_wire
  | _ =>
    let fdefs :=
      match order with
      | .ByName => m.defn.fields.mergeSort (fun a b => a.name ≤ b.name)
      | .ById => m.defn.fields.mergeSort (fun a b => a.id ≤ b.id)
      | _ => m.defn.fields
    fdefs.map (fun fd =>
      (⟨fd.id, 0⟩, (m.fields.filter (fun f => f.id = fd.id)).length))

/-- `FieldPath::with_last_index`. -/
def with_last_index : List FieldPos → Nat → List FieldPos
  | [], _ => []
  | [p], i => [⟨p.id, i⟩]
  | p :: q :: rest, i => p :: with_last_index (q :: rest) i

/-- `LayoutType`, restricted to the variants the builders produce. -/
inductive LayoutKind where
  | Scalar
  | Bytes
  | Str
  | Message
  | Collapsed
deriving DecidableEq

/-- `LayoutParams`, without the render-only `height` (recomputed by
`calc_sizes`) and the collapsed entry's `display_size`: neither
influences which layouts exist, their paths, or the collapse/expand
control flow.  `children_count` is 0 from `LayoutParams::new` until
`create_message_layouts` fills it on message heads. -/
structure LayoutP where
  path : List FieldPos
  amount : Nat
  kind : LayoutKind
  children_count : Nat
deriving DecidableEq

/-- `Layouts::calc_top_layouts_count` inner loop: count entries whose
level equals the first entry's level. -/
def calc_top_go : List LayoutP → Nat → Nat → Nat
  | [], _, c => c
  | l :: t, lv, c =>
    if l.path.length = lv then calc_top_go t lv (c + 1) else calc_top_go t lv c

/-- `Layouts::calc_top_layouts_count`. -/
def calc_top_layouts_count : List LayoutP → Nat
  | [] => 0
  | l :: t => calc_top_go t l.path.length 1

/-- `Layouts::create_scalar_layouts`: one layout per data item for
`bytes`/`string` (amount clamped to 1 each), a single layout otherwise.
`none` models the `unwrap` panic on an empty path. -/
def create_scalar_layouts (field_def : FieldProto) (path : List FieldPos)
    (amount : Nat) : Option (List LayoutP) :=
  if field_def.typename = "bytes" ∨ field_def.typename = "string" then
    match splitLast path with
    | none => none
    | some (_, last) =>
      some ((List.range (max amount 1)).map (fun k =>
        ⟨with_last_index path (last.index + k), min amount 1,
          if field_def.typename = "bytes" then .Bytes else .Str, 0⟩))
  else some [⟨path, amount, .Scalar, 0⟩]

/-- `Layouts::create_field_layouts` with `load_all = true`; the mutual
recursion into submessages goes through `cml`, the fuelled
`create_message_layouts`.  `none` models a panic (`unwrap` of a missing
last path component or field definition). -/
def create_field_layouts_g (root : MessageData)
    (cml : List FieldPos → Nat → Option (List LayoutP))
    (path : List FieldPos) (amount : Nat) : Option (List LayoutP) :=
  match splitLast path with
  | none => none
  | some (_, last_pos) =>
    match root.get_field path with
    | some field =>
      match field.value with
      | .MESSAGE _ =>
        if amount = 0 then cml path amount
        else
          (List.range amount).foldlM (fun acc k =>
            (cml (with_last_index path (last_pos.index + k)) 1).map
              (fun ls => acc ++ ls)) []
      | .SCALAR _ => create_scalar_layouts field.defn path amount
    | none =>
      match root.get_field_definition path with
      | none => none
      | some field_def =>
        if field_def.is_message then cml path amount
        else create_scalar_layouts field_def path amount

/-- `Layouts::create_message_layouts` with `load_all = true`, fuelled on
nesting depth (`none` on exhaustion or a panicking `unwrap`).
`MessageLayout::get_consumed_fields` is the trait default (the empty
set), so the descendant filter keeps every sorted field. -/
def create_message_layouts (root : MessageData) (order : FieldOrder) :
    Nat → List FieldPos → Nat → Option (List LayoutP)
  | 0, _, _ => none
  | fuel + 1, path, amount =>
    if 0 < amount then
      match root.get_submessage path with
      | none => none
      | some msg =>
        match (msg.get_sorted_fields order).foldlM (fun acc pa =>
            (create_field_layouts_g root (create_message_layouts root order fuel)
              (path ++ [pa.1]) pa.2).map (fun ls => acc ++ ls)) [] with
        | none => none
        | some descendants =>
          some (⟨path, amount, .Message, calc_top_layouts_count descendants⟩ ::
            descendants)
    else some [⟨path, amount, .Message, 0⟩]

/-- `Layouts::expand_collapsed`: rebuild the expansion at `pos` with
`create_message_layouts` (`load_all = true`); `amount` is recomputed
from `get_field`, and the pop-and-insert loop re-inserts the new
layouts in builder order.  Heights are recomputed per entry by
`calc_sizes`, outside this embedding.  `none` models the
`debug_assert`/panic paths. -/
def expand_collapsed (root : MessageData) (order : FieldOrder) (fuel : Nat)
    (items : List LayoutP) (pos : Nat) : Option (List LayoutP) :=
  match items.get? pos with
  | none => none
  | some cur =>
    let amount :=
      match root.get_field cur.path with
      | some _ => 1
      | none => 0
    match create_message_layouts root order fuel cur.path amount with
    | none => none
    | some layouts => some (items.take pos ++ layouts ++ items.drop (pos + 1))

/-- The `CollapsedToggle` branch of `Layouts::run_command`: a `Message`
entry whose submessage exists is collapsed — the following entries with
strictly longer paths are drained and the entry is replaced by a
collapsed layout (with `current.amount` kept and `children_count` reset
by `LayoutParams::new`); a `Collapsed` entry is expanded; anything else
is untouched. -/
def collapsedToggle (root : MessageData) (order : FieldOrder) (fuel : Nat)
    (items : List LayoutP) (sel : Nat) : Option (List LayoutP) :=
  match items.get? sel with
  | none => some items
  | some cur =>
    match cur.kind with
    | .Message =>
      match root.get_submessage cur.path with
      | none => some items
      | some _ =>
        some (items.take sel ++
          ⟨cur.path, cur.amount, .Collapsed, 0⟩ ::
            (items.drop (sel + 1)).dropWhile
              (fun l => cur.path.length < l.path.length))
    | .Collapsed => expand_collapsed root order fuel items sel
    | _ => some items

/-- A three-level document for the collapse/expand scenario:
`R { a = A { b = B { x = 1 } } }`. -/
def protoB9 : MessageProto := ⟨"B", [⟨"x", 3, false, .int32⟩]⟩

def protoA9 : MessageProto := ⟨"A", [⟨"b", 2, false, .message "B"⟩]⟩

def protoR9 : MessageProto := ⟨"R", [⟨"a", 1, false, .message "A"⟩]⟩

def dataB9 : MessageData :=
  .mk protoB9 [.mk ⟨"x", 3, false, .int32⟩ 0 (.SCALAR (.I32 1))]

def dataA9 : MessageData :=
  .mk protoA9 [.mk ⟨"b", 2, false, .message "B"⟩ 0 (.MESSAGE dataB9)]

def rootR9 : MessageData :=
  .mk protoR9 [.mk ⟨"a", 1, false, .message "A"⟩ 0 (.MESSAGE dataA9)]

/-- The layout state before collapsing `a`: `a` is expanded, but its
child message `b` was already toggled to `Collapsed`. -/
def itemsPre9 : List LayoutP :=
  [⟨[⟨1, 0⟩], 1, .Message, 1⟩, ⟨[⟨1, 0⟩, ⟨2, 0⟩], 1, .Collapsed, 0⟩]

/-- C9, counterexample: toggling the message entry `a` to `Collapsed`
and toggling it again does not restore the previous descendant entries
when a descendant message was itself collapsed: the re-expansion
(`load_all = true`) rebuilds the full tree, so the single collapsed
entry for `b` comes back as two entries (`b` expanded plus its scalar
`x`), a different descendant path sequence than before the collapse. -/
theorem C9_collapse_expand_counterexample :
    collapsedToggle rootR9 .Proto 5 itemsPre9 0 =
      some [⟨[⟨1, 0⟩], 1, .Collapsed, 0⟩] ∧
    collapsedToggle rootR9 .Proto 5 [⟨[⟨1, 0⟩], 1, .Collapsed, 0⟩] 0 =
      some [⟨[⟨1, 0⟩], 1, .Message, 1⟩,
        ⟨[⟨1, 0⟩, ⟨2, 0⟩], 1, .Message, 1⟩,
        ⟨[⟨1, 0⟩, ⟨2, 0⟩, ⟨3, 0⟩], 1, .Scalar, 0⟩] ∧
    ([⟨[⟨1, 0⟩], 1, .Message, 1⟩,
        ⟨[⟨1, 0⟩, ⟨2, 0⟩], 1, .Message, 1⟩,
        ⟨[⟨1, 0⟩, ⟨2, 0⟩, ⟨3, 0⟩], 1, .Scalar, 0⟩] : List LayoutP).map LayoutP.path ≠
      itemsPre9.map LayoutP.path := by
  refine ⟨by decide, by decide, by decide⟩

theorem create_message_head (root : MessageData) (order : FieldOrder)
    (fuel : Nat) (path : List FieldPos) (amount : Nat) (e : LayoutP)
    (rest : List LayoutP)
    (h : create_message_layouts root order fuel path amount = some (e :: rest)) :
    e.path = path ∧ e.amount = amount ∧ e.kind = .Message ∧
      (0 < amount → ∃ msg, root.get_submessage path = some msg) := by
  cases fuel with
  | zero => simp [create_message_layouts] at h
  | succ f =>
    rw [create_message_layouts] at h
    by_cases ha : 0 < amount
    · rw [if_pos ha] at h
      split at h
      · simp at h
      · rename_i msg hsub
        split at h
        · simp at h
        · rename_i ds hds
          simp only [Option.some.injEq, List.cons.injEq] at h
          obtain ⟨he, -⟩ := h
          rw [← he]
          exact ⟨rfl, rfl, rfl, fun _ => ⟨msg, hsub⟩⟩
    · rw [if_neg ha] at h
      simp only [Option.some.injEq, List.cons.injEq] at h
      obtain ⟨he, -⟩ := h
      rw [← he]
      exact ⟨rfl, rfl, rfl, fun hc => absurd hc ha⟩

theorem dropWhile_all_append (p : LayoutP → Bool) (rest post : List LayoutP)
    (h1 : ∀ l ∈ rest, p l = true)
    (h2 : ∀ l, post.head? = some l → p l = false) :
    (rest ++ post).dropWhile p = post := by
  induction rest with
  | nil =>
    simp only [List.nil_append]
    cases post with
    | nil => rfl
    | cons x t =>
      rw [List.dropWhile_cons, if_neg]
      simp [h2 x rfl]
  | cons r t ih =>
    rw [List.cons_append, List.dropWhile_cons, if_pos (h1 r (by simp))]
    exact ih (fun l hl => h1 l (by simp [hl]))

theorem get_at_middle (pre post : List LayoutP) (e : LayoutP) :
    (pre ++ e :: post).get? pre.length = some e := by
  rw [List.get?_eq_getElem?, List.getElem?_append_right (Nat.le_refl _)]
  simp

theorem take_at_middle (pre post : List LayoutP) (e : LayoutP) :
    (pre ++ e :: post).take pre.length = pre := by
  simpa using List.take_left pre (e :: post)

theorem drop_at_middle (pre post : List LayoutP) (e : LayoutP) :
    (pre ++ e :: post).drop (pre.length + 1) = post := by
  have h1 : pre ++ e :: post = (pre ++ [e]) ++ post := by simp
  have h2 : pre.length + 1 = (pre ++ [e]).length := by simp
  rw [h1, h2]
  exact List.drop_left _ _

/-- C9, amended: collapsing a message entry whose descendant segment is
the canonical full expansion (`create_message_layouts`, every
descendant deeper than the entry, the next entry at most as deep)
replaces the segment with one collapsed entry, and toggling again
restores exactly the previous entries — same descendant paths, amounts
and children counts.  The restoration fails when a descendant message
was itself collapsed: the re-expansion always rebuilds the full tree
(see the counterexample). -/
theorem C9_collapse_expand_amended
    (root : MessageData) (order : FieldOrder) (fuel : Nat)
    (pre rest post : List LayoutP) (path : List FieldPos) (e : LayoutP)
    (hexp : create_message_layouts root order fuel path 1 = some (e :: rest))
    (hdeep : ∀ l ∈ rest, path.length < l.path.length)
    (hpost : ∀ l, post.head? = some l → l.path.length ≤ path.length)
    (hfield : (root.get_field path).isSome = true) :
    collapsedToggle root order fuel (pre ++ e :: rest ++ post) pre.length =
      some (pre ++ ⟨path, 1, .Collapsed, 0⟩ :: post) ∧
    collapsedToggle root order fuel (pre ++ ⟨path, 1, .Collapsed, 0⟩ :: post)
        pre.length =
      some (pre ++ e :: rest ++ post) := by
  obtain ⟨hep, hea, hek, hsub'⟩ :=
    create_message_head root order fuel path 1 e rest hexp
  obtain ⟨msg, hsub⟩ := hsub' (by omega)
  obtain ⟨f, hf⟩ := Option.isSome_iff_exists.mp hfield
  have hdw := dropWhile_all_append
    (fun l => decide (path.length < l.path.length)) rest post
    (fun l hl => by simp [hdeep l hl])
    (fun l hl => by
      have := hpost l hl
      simp
      omega)
  have hg1 := get_at_middle pre (rest ++ post) e
  have hg2 := get_at_middle pre post (⟨path, 1, .Collapsed, 0⟩ : LayoutP)
  have htk1 := take_at_middle pre (rest ++ post) e
  have hdr1 := drop_at_middle pre (rest ++ post) e
  have htk2 := take_at_middle pre post (⟨path, 1, .Collapsed, 0⟩ : LayoutP)
  have hdr2 := drop_at_middle pre post (⟨path, 1, .Collapsed, 0⟩ : LayoutP)
  constructor
  · simp only [List.cons_append, List.append_assoc]
    simp only [collapsedToggle, hg1, hek, hep, hsub, htk1, hdr1, hdw, hea]
  · simp only [List.cons_append, List.append_assoc]
    simp only [collapsedToggle, hg2, expand_collapsed, hf, hexp, htk2, hdr2]
    simp

/-- The fully expanded layout segment for the document `rootR9`. -/
def itemsFull9 : List LayoutP :=
  [⟨[⟨1, 0⟩], 1, .Message, 1⟩,
    ⟨[⟨1, 0⟩, ⟨2, 0⟩], 1, .Message, 1⟩,
    ⟨[⟨1, 0⟩, ⟨2, 0⟩, ⟨3, 0⟩], 1, .Scalar, 0⟩]

/-- Witness for `C9_collapse_expand_amended` on `rootR9` with the fully
expanded segment. -/
theorem C9_collapse_expand_amended_witness :
    collapsedToggle rootR9 .Proto 5 itemsFull9 0 =
      some [⟨[⟨1, 0⟩], 1, .Collapsed, 0⟩] ∧
    collapsedToggle rootR9 .Proto 5 [⟨[⟨1, 0⟩], 1, .Collapsed, 0⟩] 0 =
      some itemsFull9 := by
  have h := C9_collapse_expand_amended rootR9 .Proto 5 []
    [⟨[⟨1, 0⟩, ⟨2, 0⟩], 1, .Message, 1⟩,
      ⟨[⟨1, 0⟩, ⟨2, 0⟩, ⟨3, 0⟩], 1, .Scalar, 0⟩] []
    [⟨1, 0⟩] ⟨[⟨1, 0⟩], 1, .Message, 1⟩
    (by decide) (by decide) (fun l hl => by simp at hl) (by decide)
  simpa [itemsFull9] using h

end Protoedit
